import Mathlib

/-!
A shallow embedding of `FixedLengthList.hpp` (bright-tools/datastructures):
a fixed-capacity singly linked list backed by a pool of `queueMax` slots,
split between a free stack and a used list with head and tail pointers.

Pointers into the slot pool (`FixedLengthListItem<T>*`) are modelled as
optional indices into the pool (`Option Nat`, `none` standing for `NULL`).
A slot's stored value is modelled as `Option T`, `none` standing for an
indeterminate (never-written) cell; every write stores `some v`.
`size_t` arithmetic on `m_usedCount` is modelled with `Nat`: in every
reachable (well-formed) state the counter stays in `0 .. queueMax`, so no
wrap-around of the C++ unsigned arithmetic is observable.
The unbounded `while` loops that walk a chain of forward links are modelled
with an explicit fuel argument; fuel `queueMax` is always sufficient on
well-formed states, where chains have at most `queueMax` nodes.
-/

set_option maxHeartbeats 1000000

/-- Wrapper for one slot of the list: the forward link `m_forward`
(a nullable pointer modelled as an optional slot index) and the stored
value `m_item` (`none` = indeterminate, never-written storage).
Mirrors `FixedLengthListItem` (FixedLengthList.hpp lines 42-49). -/
structure FixedLengthListItem (L : Type) where
  m_forward : Option Nat
  m_item : Option L
deriving DecidableEq, Repr

/-- State of a `FixedLengthList<T, queueMax>` (FixedLengthList.hpp lines
152-268): the pool `m_items` of `queueMax` slots, the free-stack head,
the used-list head and tail, and the used counter. -/
structure FixedLengthList (T : Type) (queueMax : Nat) where
  m_items : List (FixedLengthListItem T)
  m_freeHead : Option Nat
  m_usedHead : Option Nat
  m_usedTail : Option Nat
  m_usedCount : Nat
deriving DecidableEq

/-- Reading `a[i]` in the slot pool; out-of-range reads (which cannot occur
through the public interface) yield an indeterminate slot. -/
def nthItem {T : Type} (a : List (FixedLengthListItem T)) (i : Nat) :
    FixedLengthListItem T :=
  (a[i]?).getD ⟨none, none⟩

/-- Writing `a[i].m_forward = f`, leaving the stored value in place. -/
def setForward {T : Type} (a : List (FixedLengthListItem T)) (i : Nat)
    (f : Option Nat) : List (FixedLengthListItem T) :=
  a.set i ⟨f, (nthItem a i).m_item⟩

/-- Translation of `FixedLengthList::clear` (lines 335-356): head and tail
of the used list become null, all slots are chained onto the free stack in
array order (slot `i` forwards to slot `i+1`, the last slot to null) and the
free head points at slot `0`.  Stored values are left in place (stale).
`queueMax = 0` is ruled out in the C++ by a `STATIC_ASSERT`. -/
def FixedLengthList.clear {T : Type} {N : Nat} (s : FixedLengthList T N) :
    FixedLengthList T N :=
  { s with
    m_usedHead := none
    m_usedTail := none
    m_freeHead := some 0
    m_items := s.m_items.mapIdx
      (fun i it => { it with m_forward := if i + 1 < N then some (i + 1) else none })
    m_usedCount := 0 }

/-- Translation of the default constructor `FixedLengthList()` (lines
271-275): a pool of `queueMax` default-initialised (indeterminate) slots,
then `clear()`. -/
def FixedLengthList.init (T : Type) (N : Nat) : FixedLengthList T N :=
  FixedLengthList.clear ⟨List.replicate N ⟨none, none⟩, none, none, none, 0⟩

/-- First loop of the initialising constructor (lines 291-311), walking the
index/value pairs in order.  State carried across iterations: the pool, the
used head, the used tail and the `prev` pointer.  Each iteration clears the
new slot's forward link, stores the value, links `prev` forward to it (or
makes it the head), and makes it the tail. -/
def initLoop {T : Type} (a : List (FixedLengthListItem T))
    (uh ut prev : Option Nat) :
    List (Nat × T) →
      List (FixedLengthListItem T) × Option Nat × Option Nat × Option Nat
  | [] => (a, uh, ut, prev)
  | (i, v) :: rest =>
    let a1 := a.set i ⟨none, some v⟩
    match prev with
    | some pr => initLoop (setForward a1 pr (some i)) uh (some i) (some i) rest
    | none => initLoop a1 (some i) (some i) (some i) rest

/-- Second loop of the initialising constructor (lines 319-332), moving the
remaining slots onto the free stack in array order.  State carried: the
pool, the free head and the `prev` pointer. -/
def freeLoop {T : Type} (a : List (FixedLengthListItem T))
    (fh prev : Option Nat) :
    List Nat → List (FixedLengthListItem T) × Option Nat
  | [] => (a, fh)
  | i :: rest =>
    let a1 := setForward a i none
    match prev with
    | some pr => freeLoop (setForward a1 pr (some i)) fh (some i) rest
    | none => freeLoop a1 (some i) (some i) rest

/-- Translation of the initialising constructor
`FixedLengthList(const T* p_items, size_t p_count)` (lines 277-333).
The C++ receives a pointer to `p_count` values; here the input array is the
list `p_items` and `p_count` its length.  Only `min(queueMax, p_count)`
values are consumed, in order; the remaining slots form the free stack. -/
def FixedLengthList.initWith {T : Type} (N : Nat) (p_items : List T) :
    FixedLengthList T N :=
  let init_count := min N p_items.length
  let r1 := initLoop (List.replicate N ⟨none, none⟩) none none none
    ((List.range init_count).zip p_items)
  let r2 := freeLoop r1.1 none none ((List.range N).drop init_count)
  ⟨r2.1, r2.2, r1.2.1, r1.2.2.1, init_count⟩

/-- Translation of `FixedLengthList::push` (lines 358-389): on a non-null
free head, pop that slot off the free stack, store the value, link it in
front of the used head, make it the head (and the tail if the list was
empty), and bump the counter.  Returns the success flag and the new state. -/
def FixedLengthList.push {T : Type} {N : Nat} (s : FixedLengthList T N)
    (p_item : T) : Bool × FixedLengthList T N :=
  match s.m_freeHead with
  | none => (false, s)
  | some ni =>
    (true,
      { s with
        m_freeHead := (nthItem s.m_items ni).m_forward
        m_items := s.m_items.set ni ⟨s.m_usedHead, some p_item⟩
        m_usedHead := some ni
        m_usedTail := if s.m_usedTail = none then some ni else s.m_usedTail
        m_usedCount := s.m_usedCount + 1 })

/-- Translation of `FixedLengthList::queue` (lines 391-430): on a non-null
free head, pop that slot off the free stack, store the value with a null
forward link, link the old tail forward to it (if a tail existed), make it
the tail (and the head if the list was empty), and bump the counter. -/
def FixedLengthList.queue {T : Type} {N : Nat} (s : FixedLengthList T N)
    (p_item : T) : Bool × FixedLengthList T N :=
  match s.m_freeHead with
  | none => (false, s)
  | some ni =>
    let a1 := s.m_items.set ni ⟨none, some p_item⟩
    let a2 :=
      match s.m_usedTail with
      | some t => setForward a1 t (some ni)
      | none => a1
    (true,
      { s with
        m_freeHead := (nthItem s.m_items ni).m_forward
        m_items := a2
        m_usedTail := some ni
        m_usedHead := if s.m_usedHead = none then some ni else s.m_usedHead
        m_usedCount := s.m_usedCount + 1 })

/-- Translation of `FixedLengthList::pop` (lines 432-461).  The output
location `*p_item` is modelled by threading its contents: `p_item` is the
value held at the output location before the call and the third component
of the result is its contents after the call (unchanged on failure). -/
def FixedLengthList.pop {T : Type} {N : Nat} (s : FixedLengthList T N)
    (p_item : Option T) : Bool × FixedLengthList T N × Option T :=
  match s.m_usedHead with
  | none => (false, s, p_item)
  | some oi =>
    (true,
      { s with
        m_usedHead := (nthItem s.m_items oi).m_forward
        m_usedTail := if s.m_usedTail = some oi then none else s.m_usedTail
        m_items := setForward s.m_items oi s.m_freeHead
        m_freeHead := some oi
        m_usedCount := s.m_usedCount - 1 },
      (nthItem s.m_items oi).m_item)

/-- Translation of the predecessor-scan loop inside
`FixedLengthList::remove_node` (lines 500-512): walk the used list from the
given pointer looking for the first slot whose forward link equals
`some target`.  The fuel bounds the walk (the C++ loop is unbounded; fuel
`queueMax` suffices on well-formed states). -/
def find_pred {T : Type} (a : List (FixedLengthListItem T)) (target : Nat) :
    Option Nat → Nat → Option Nat
  | none, _ => none
  | some _, 0 => none
  | some p, fuel + 1 =>
    if (nthItem a p).m_forward = some target then some p
    else find_pred a target (nthItem a p).m_forward fuel

/-- Translation of `FixedLengthList::remove_node` (lines 484-520), removing
slot `j` (which the caller took from the used list): if `j` is the head,
null both head and tail; otherwise scan for its predecessor and, when
found, null the predecessor's forward link and make it the tail.  Then link
slot `j` onto the free stack and decrement the counter. -/
def FixedLengthList.remove_node {T : Type} {N : Nat}
    (s : FixedLengthList T N) (j : Nat) : FixedLengthList T N :=
  let s1 :=
    if s.m_usedHead = some j then
      { s with m_usedHead := none, m_usedTail := none }
    else
      match find_pred s.m_items j s.m_usedHead N with
      | some p =>
        { s with m_items := setForward s.m_items p none, m_usedTail := some p }
      | none => s
  { s1 with
    m_items := setForward s1.m_items j s1.m_freeHead
    m_freeHead := some j
    m_usedCount := s1.m_usedCount - 1 }

/-- Translation of `FixedLengthList::dequeue` (lines 463-481): on a
non-null tail, copy the tail slot's value to the output location and
`remove_node` it.  The output location is threaded as in `pop`. -/
def FixedLengthList.dequeue {T : Type} {N : Nat} (s : FixedLengthList T N)
    (p_item : Option T) : Bool × FixedLengthList T N × Option T :=
  match s.m_usedTail with
  | none => (false, s, p_item)
  | some oi =>
    (true, s.remove_node oi, (nthItem s.m_items oi).m_item)

/-- Translation of the scan loop of `FixedLengthList::remove` (lines
529-567), walking the used list from pointer `p` with predecessor `last`:
at the first slot whose stored value equals the sought value, unlink it
(updating the head or the predecessor's forward link, and the tail when it
was the tail), push it onto the free stack, decrement the counter and
return `true`; if the walk ends, return `false` with the state unchanged. -/
def remove_go {T : Type} {N : Nat} [DecidableEq T] (s : FixedLengthList T N)
    (p_item : T) : Option Nat → Option Nat → Nat → Bool × FixedLengthList T N
  | _, none, _ => (false, s)
  | _, some _, 0 => (false, s)
  | last, some p, fuel + 1 =>
    if (nthItem s.m_items p).m_item = some p_item then
      let fwd := (nthItem s.m_items p).m_forward
      let s1 :=
        match last with
        | none => { s with m_usedHead := fwd }
        | some l => { s with m_items := setForward s.m_items l fwd }
      let s2 :=
        if s1.m_usedTail = some p then { s1 with m_usedTail := last } else s1
      (true,
        { s2 with
          m_items := setForward s2.m_items p s2.m_freeHead
          m_freeHead := some p
          m_usedCount := s2.m_usedCount - 1 })
    else
      remove_go s p_item (some p) (nthItem s.m_items p).m_forward fuel

/-- Translation of `FixedLengthList::remove` (lines 522-570): scan from the
used head with a null predecessor. -/
def FixedLengthList.remove {T : Type} {N : Nat} [DecidableEq T]
    (s : FixedLengthList T N) (p_item : T) : Bool × FixedLengthList T N :=
  remove_go s p_item none s.m_usedHead N

/-- Translation of `FixedLengthList::used` (lines 572-576). -/
def FixedLengthList.used {T : Type} {N : Nat} (s : FixedLengthList T N) :
    Nat :=
  s.m_usedCount

/-- Translation of `FixedLengthList::available` (lines 578-582):
`queueMax - m_usedCount` in `size_t` arithmetic; exact as `Nat` subtraction
whenever `m_usedCount ≤ queueMax`, which holds in every reachable state. -/
def FixedLengthList.available {T : Type} {N : Nat}
    (s : FixedLengthList T N) : Nat :=
  N - s.m_usedCount

/-- Translation of the scan loop of `FixedLengthList::inList` (lines
584-603), walking the used list looking for a slot storing the value. -/
def inList_go {T : Type} [DecidableEq T] (a : List (FixedLengthListItem T))
    (p_val : T) : Option Nat → Nat → Bool
  | none, _ => false
  | some _, 0 => false
  | some p, fuel + 1 =>
    if (nthItem a p).m_item = some p_val then true
    else inList_go a p_val (nthItem a p).m_forward fuel

/-- Translation of `FixedLengthList::inList` (lines 584-603). -/
def FixedLengthList.inList {T : Type} {N : Nat} [DecidableEq T]
    (s : FixedLengthList T N) (p_val : T) : Bool :=
  inList_go s.m_items p_val s.m_usedHead N

/-- Iterator over a `FixedLengthList` (lines 75-100): holds a nullable
pointer `m_item` into the slot pool, modelled as an optional index. -/
structure FixedLengthListIter (T : Type) (queueMax : Nat) where
  m_item : Option Nat
deriving DecidableEq

/-- Translation of the iterator's void constructor (lines 617-620): the
null pointer, equal to `end()`. -/
def FixedLengthListIter.initVoid (T : Type) (N : Nat) :
    FixedLengthListIter T N :=
  ⟨none⟩

/-- Translation of `FixedLengthList::begin` (lines 605-609): an iterator at
the used head. -/
def FixedLengthList.begin {T : Type} {N : Nat} (s : FixedLengthList T N) :
    FixedLengthListIter T N :=
  ⟨s.m_usedHead⟩

/-- Translation of `FixedLengthList::end` (lines 611-615): an iterator at
the null pointer (`end` is a Lean keyword, hence the name). -/
def FixedLengthList.endIter {T : Type} {N : Nat}
    (_s : FixedLengthList T N) : FixedLengthListIter T N :=
  ⟨none⟩

/-- Translation of the iterator's `operator==` (lines 663-667): pointer
comparison. -/
def FixedLengthListIter.eq {T : Type} {N : Nat}
    (i1 i2 : FixedLengthListIter T N) : Bool :=
  i1.m_item = i2.m_item

/-- Translation of the iterator's `operator!=` (lines 669-673). -/
def FixedLengthListIter.ne {T : Type} {N : Nat}
    (i1 i2 : FixedLengthListIter T N) : Bool :=
  i1.m_item ≠ i2.m_item

/-- Translation of the iterator's `operator*` (lines 627-631):
`m_item->m_item`.  The outer `none` marks the null-pointer dereference the
C++ performs when the iterator is at `end()` (undefined behaviour). -/
def FixedLengthListIter.deref {T : Type} {N : Nat}
    (s : FixedLengthList T N) (it : FixedLengthListIter T N) :
    Option (Option T) :=
  it.m_item.map (fun i => (nthItem s.m_items i).m_item)

/-- Translation of the pre-increment `operator++` (lines 641-646):
`m_item = m_item->m_forward`, with no null check.  The result is `none`
exactly when the C++ dereferences a null pointer (undefined behaviour),
namely when the iterator is already at `end()`. -/
def FixedLengthListIter.incr {T : Type} {N : Nat}
    (s : FixedLengthList T N) (it : FixedLengthListIter T N) :
    Option (FixedLengthListIter T N) :=
  match it.m_item with
  | none => none
  | some i => some ⟨(nthItem s.m_items i).m_forward⟩

/-- Translation of the post-increment `operator++(int)` (lines 633-639):
clone, advance with no null check, return the clone.  The pair is
(returned clone, iterator after the call); `none` again marks the
null-pointer dereference on an `end()` iterator. -/
def FixedLengthListIter.incrPost {T : Type} {N : Nat}
    (s : FixedLengthList T N) (it : FixedLengthListIter T N) :
    Option (FixedLengthListIter T N × FixedLengthListIter T N) :=
  match it.m_item with
  | none => none
  | some i => some (it, ⟨(nthItem s.m_items i).m_forward⟩)

/-- Translation of `operator+=` (lines 648-661): step forward `p_inc`
times, stopping early (with no dereference) as soon as the pointer is
null. -/
def FixedLengthListIter.plusEq {T : Type} {N : Nat}
    (s : FixedLengthList T N) (it : FixedLengthListIter T N) :
    Nat → FixedLengthListIter T N
  | 0 => it
  | p_inc + 1 =>
    match it.m_item with
    | none => it
    | some i =>
      FixedLengthListIter.plusEq s ⟨(nthItem s.m_items i).m_forward⟩ p_inc

/-- Values visited by a full `begin()`-to-`end()` traversal starting at the
given pointer: dereference, then follow the forward link, until the cursor
equals the `end()` sentinel.  Fuel bounds the walk as in the scan loops. -/
def iterToList {T : Type} (a : List (FixedLengthListItem T)) :
    Option Nat → Nat → List (Option T)
  | none, _ => []
  | some _, 0 => []
  | some i, fuel + 1 =>
    (nthItem a i).m_item :: iterToList a (nthItem a i).m_forward fuel

/-- One public mutating operation of the container. -/
inductive Op (T : Type) where
  | push (v : T)
  | queue (v : T)
  | pop
  | dequeue
  | remove (v : T)
  | clear
deriving DecidableEq

/-- Apply one public mutating operation to the state (discarding the
success flag and the output value, which do not affect the state). -/
def applyOp {T : Type} {N : Nat} [DecidableEq T] (s : FixedLengthList T N) :
    Op T → FixedLengthList T N
  | .push v => (s.push v).2
  | .queue v => (s.queue v).2
  | .pop => (s.pop none).2.1
  | .dequeue => (s.dequeue none).2.1
  | .remove v => (s.remove v).2
  | .clear => s.clear

/-- Run a sequence of public mutating operations from a given state. -/
def runOps {T : Type} {N : Nat} [DecidableEq T] (s : FixedLengthList T N)
    (ops : List (Op T)) : FixedLengthList T N :=
  ops.foldl applyOp s

/-- Queue a sequence of values, left to right. -/
def runQueues {T : Type} {N : Nat} (s : FixedLengthList T N)
    (vs : List T) : FixedLengthList T N :=
  vs.foldl (fun s v => (s.queue v).2) s

/-- Dequeue `k` times, collecting each call's success flag and the value
written to the output location (the output location starts out holding
`none` for each call). -/
def dequeueDrain {T : Type} {N : Nat} (s : FixedLengthList T N) :
    Nat → List (Bool × Option T)
  | 0 => []
  | k + 1 =>
    let r := s.dequeue none
    (r.1, r.2.2) :: dequeueDrain r.2.1 k

/-- Stored values of the slots at the given indices, in order. -/
def vals {T : Type} (a : List (FixedLengthListItem T)) (l : List Nat) :
    List (Option T) :=
  l.map (fun i => (nthItem a i).m_item)

/-- Fuel-bounded walk of a forward chain starting at the given pointer:
`some l` when the chain reaches the null pointer within the fuel, visiting
in-range slots `l` in order; `none` when the fuel runs out or the chain
leaves the pool. -/
def chain? {T : Type} (a : List (FixedLengthListItem T)) :
    Option Nat → Nat → Option (List Nat)
  | none, _ => some []
  | some _, 0 => none
  | some i, fuel + 1 =>
    match a[i]? with
    | none => none
    | some it =>
      match chain? a it.m_forward fuel with
      | some l => some (i :: l)
      | none => none

/-- Well-formedness of a list state, witnessed by the used chain `ul` and
the free chain `fl`: the pool has `queueMax` slots, both chains terminate
(within fuel `queueMax`), the counter counts the used chain, the chains
cover the pool without overlap, and the tail pointer is the last used
slot.  Every state reachable through the public interface satisfies this
for a unique pair of chains. -/
def WFl {T : Type} {N : Nat} (s : FixedLengthList T N)
    (ul fl : List Nat) : Prop :=
  s.m_items.length = N ∧
  chain? s.m_items s.m_usedHead N = some ul ∧
  chain? s.m_items s.m_freeHead N = some fl ∧
  s.m_usedCount = ul.length ∧
  ul.length + fl.length = N ∧
  (ul ++ fl).Nodup ∧
  s.m_usedTail = ul.getLast?

/-- Well-formedness, chains existentially quantified. -/
def WF {T : Type} {N : Nat} (s : FixedLengthList T N) : Prop :=
  ∃ ul fl, WFl s ul fl

instance WFl.decidable {T : Type} {N : Nat} (s : FixedLengthList T N)
    (ul fl : List Nat) : Decidable (WFl s ul fl) := by
  unfold WFl
  exact inferInstance

/-- Forward-chain segment: following forward links from pointer `h` visits
the slots `l` in order and leaves the cursor at pointer `h'`.  A full chain
is a segment ending in the null pointer. -/
inductive ChainSeg {T : Type} (a : List (FixedLengthListItem T)) :
    Option Nat → List Nat → Option Nat → Prop
  | nil (h : Option Nat) : ChainSeg a h [] h
  | cons {i : Nat} {it : FixedLengthListItem T} {l : List Nat}
      {h' : Option Nat} :
      a[i]? = some it → ChainSeg a it.m_forward l h' →
      ChainSeg a (some i) (i :: l) h'

theorem ChainSeg.nil_inv {T : Type} {a : List (FixedLengthListItem T)}
    {h h' : Option Nat} (hc : ChainSeg a h [] h') : h' = h := by
  cases hc
  rfl

theorem ChainSeg.cons_inv {T : Type} {a : List (FixedLengthListItem T)}
    {i : Nat} {l : List Nat} {h' : Option Nat}
    (hc : ChainSeg a (some i) (i :: l) h') :
    ∃ it, a[i]? = some it ∧ ChainSeg a it.m_forward l h' := by
  cases hc with
  | cons hget hrest => exact ⟨_, hget, hrest⟩

theorem ChainSeg.head_eq {T : Type} {a : List (FixedLengthListItem T)}
    {h : Option Nat} {j : Nat} {l : List Nat} {h' : Option Nat}
    (hc : ChainSeg a h (j :: l) h') : h = some j := by
  cases hc
  rfl

theorem chain?_sound {T : Type} {a : List (FixedLengthListItem T)} :
    ∀ (fuel : Nat) (h : Option Nat) (l : List Nat),
      chain? a h fuel = some l → ChainSeg a h l none
  | _, none, l, he => by
    simp only [chain?, Option.some.injEq] at he
    subst he
    exact ChainSeg.nil none
  | fuel + 1, some i, l, he => by
    simp only [chain?] at he
    split at he
    · exact absurd he (by simp)
    · rename_i it hget
      split at he
      · rename_i l' hch
        simp only [Option.some.injEq] at he
        subst he
        exact ChainSeg.cons hget (chain?_sound fuel _ l' hch)
      · exact absurd he (by simp)

theorem chain?_length_le {T : Type} {a : List (FixedLengthListItem T)} :
    ∀ (fuel : Nat) (h : Option Nat) (l : List Nat),
      chain? a h fuel = some l → l.length ≤ fuel
  | _, none, l, he => by
    simp only [chain?, Option.some.injEq] at he
    subst he
    simp
  | fuel + 1, some i, l, he => by
    simp only [chain?] at he
    split at he
    · exact absurd he (by simp)
    · rename_i it hget
      split at he
      · rename_i l' hch
        simp only [Option.some.injEq] at he
        subst he
        simpa using chain?_length_le fuel _ l' hch
      · exact absurd he (by simp)

theorem chain?_complete {T : Type} {a : List (FixedLengthListItem T)} :
    ∀ (l : List Nat) (h : Option Nat), ChainSeg a h l none →
      ∀ (fuel : Nat), l.length ≤ fuel → chain? a h fuel = some l
  | [], h, hc, fuel, _ => by
    have hh := hc.nil_inv
    subst hh
    cases fuel <;> rfl
  | i :: l, h, hc, fuel, hle => by
    have hh := hc.head_eq
    subst hh
    obtain ⟨it, hget, hrest⟩ := hc.cons_inv
    match fuel, hle with
    | f + 1, hle =>
      have hr := chain?_complete l _ hrest f (by simpa using hle)
      simp only [chain?, hget, hr]

theorem ChainSeg.append {T : Type} {a : List (FixedLengthListItem T)}
    {h h' h'' : Option Nat} {l₁ l₂ : List Nat}
    (h1 : ChainSeg a h l₁ h') (h2 : ChainSeg a h' l₂ h'') :
    ChainSeg a h (l₁ ++ l₂) h'' := by
  induction h1 with
  | nil => simpa using h2
  | cons hget _ ih => exact ChainSeg.cons hget (ih h2)

theorem ChainSeg.split {T : Type} {a : List (FixedLengthListItem T)} :
    ∀ (l₁ : List Nat) {h h'' : Option Nat} {l₂ : List Nat},
      ChainSeg a h (l₁ ++ l₂) h'' →
      ∃ h', ChainSeg a h l₁ h' ∧ ChainSeg a h' l₂ h''
  | [], h, h'', l₂, hc => ⟨h, ChainSeg.nil h, hc⟩
  | i :: l₁, h, h'', l₂, hc => by
    have hh : h = some i := hc.head_eq
    subst hh
    obtain ⟨it, hget, hrest⟩ := hc.cons_inv
    obtain ⟨h', hs1, hs2⟩ := ChainSeg.split l₁ hrest
    exact ⟨h', ChainSeg.cons hget hs1, hs2⟩

theorem ChainSeg.set_not_mem {T : Type} {a : List (FixedLengthListItem T)}
    {h h' : Option Nat} {l : List Nat} {j : Nat} {x : FixedLengthListItem T}
    (hc : ChainSeg a h l h') (hj : j ∉ l) :
    ChainSeg (a.set j x) h l h' := by
  induction hc with
  | nil => exact ChainSeg.nil _
  | @cons i it l' h' hget hrest ih =>
    have hij : j ≠ i := by
      intro he
      exact hj (by simp [he])
    have : (a.set j x)[i]? = some it := by
      rw [List.getElem?_set_ne hij]
      exact hget
    exact ChainSeg.cons this (ih (fun hm => hj (by simp [hm])))

theorem ChainSeg.mem_lt {T : Type} {a : List (FixedLengthListItem T)}
    {h h' : Option Nat} {l : List Nat} (hc : ChainSeg a h l h') :
    ∀ i ∈ l, i < a.length := by
  induction hc with
  | nil => intro i hi; simp at hi
  | @cons i it l' h' hget _ ih =>
    intro k hk
    rcases List.mem_cons.mp hk with he | hm
    · subst he
      obtain ⟨hlt, -⟩ := List.getElem?_eq_some.mp hget
      exact hlt
    · exact ih k hm

theorem ChainSeg.unique {T : Type} {a : List (FixedLengthListItem T)} :
    ∀ {h : Option Nat} {l l' : List Nat},
      ChainSeg a h l none → ChainSeg a h l' none → l = l' := by
  intro h l
  induction l generalizing h with
  | nil =>
    intro l' h1 h2
    have := h1.nil_inv
    subst this
    cases h2 with
    | nil => rfl
  | cons i l ih =>
    intro l' h1 h2
    have hh : h = some i := h1.head_eq
    subst hh
    obtain ⟨it, hget, hrest⟩ := h1.cons_inv
    cases h2 with
    | @cons _ it' _ _ hget' hrest' =>
      rw [hget] at hget'
      cases hget'
      exact congrArg (i :: ·) (ih hrest hrest')

theorem nthItem_of_getElem? {T : Type} {a : List (FixedLengthListItem T)}
    {i : Nat} {it : FixedLengthListItem T} (h : a[i]? = some it) :
    nthItem a i = it := by
  simp [nthItem, h]

theorem nthItem_set_ne {T : Type} {a : List (FixedLengthListItem T)}
    {i j : Nat} {x : FixedLengthListItem T} (h : j ≠ i) :
    nthItem (a.set j x) i = nthItem a i := by
  simp [nthItem, List.getElem?_set_ne h]

theorem nthItem_set_eq {T : Type} {a : List (FixedLengthListItem T)}
    {i : Nat} {x : FixedLengthListItem T} (h : i < a.length) :
    nthItem (a.set i x) i = x := by
  simp [nthItem, List.getElem?_set_eq_of_lt x h]

theorem nthItem_setForward_item {T : Type}
    (a : List (FixedLengthListItem T)) (j : Nat) (f : Option Nat) (i : Nat) :
    (nthItem (setForward a j f) i).m_item = (nthItem a i).m_item := by
  by_cases hij : j = i
  · subst hij
    by_cases hlt : j < a.length
    · rw [setForward, nthItem_set_eq hlt]
    · rw [setForward, List.set_eq_of_length_le (by omega)]
  · rw [setForward, nthItem_set_ne hij]

theorem length_setForward {T : Type} (a : List (FixedLengthListItem T))
    (j : Nat) (f : Option Nat) : (setForward a j f).length = a.length := by
  simp [setForward]

theorem vals_set_not_mem {T : Type} {a : List (FixedLengthListItem T)}
    {l : List Nat} {j : Nat} (x : FixedLengthListItem T) (h : j ∉ l) :
    vals (a.set j x) l = vals a l := by
  apply List.map_congr_left
  intro i hi
  exact congrArg _ (nthItem_set_ne (fun he => h (he ▸ hi)))

theorem vals_setForward {T : Type} (a : List (FixedLengthListItem T))
    (j : Nat) (f : Option Nat) (l : List Nat) :
    vals (setForward a j f) l = vals a l := by
  apply List.map_congr_left
  intro i _
  exact nthItem_setForward_item a j f i

theorem nodup_split {ul fl : List Nat} (h : (ul ++ fl).Nodup) :
    ul.Nodup ∧ fl.Nodup ∧ ∀ i ∈ ul, i ∉ fl := by
  obtain ⟨h1, h2, h3⟩ := List.nodup_append.mp h
  exact ⟨h1, h2, fun i hi hif => h3 hi hif⟩

theorem WFl_of_chains {T : Type} {N : Nat} {s : FixedLengthList T N}
    {ul fl : List Nat} (h1 : s.m_items.length = N)
    (h2 : ChainSeg s.m_items s.m_usedHead ul none)
    (h3 : ChainSeg s.m_items s.m_freeHead fl none)
    (h4 : s.m_usedCount = ul.length) (h5 : ul.length + fl.length = N)
    (h6 : (ul ++ fl).Nodup) (h7 : s.m_usedTail = ul.getLast?) :
    WFl s ul fl :=
  ⟨h1, chain?_complete ul _ h2 N (by omega),
    chain?_complete fl _ h3 N (by omega), h4, h5, h6, h7⟩

/-- Characterisation of a successful `push` on a well-formed state with a
non-empty free stack: it succeeds, the popped free slot becomes the new
used head holding the pushed value, and every other slot is untouched. -/
theorem push_spec {T : Type} {N : Nat} (s : FixedLengthList T N)
    (ul fl' : List Nat) (nf : Nat) (v : T)
    (hwf : WFl s ul (nf :: fl')) :
    (s.push v).1 = true ∧
    WFl (s.push v).2 (nf :: ul) fl' ∧
    vals (s.push v).2.m_items (nf :: ul) = some v :: vals s.m_items ul ∧
    ∀ j, j ≠ nf → nthItem (s.push v).2.m_items j = nthItem s.m_items j := by
  obtain ⟨hlen, hu, hf, hcnt, hsum, hnd, htl⟩ := hwf
  have hcf : ChainSeg s.m_items s.m_freeHead (nf :: fl') none :=
    chain?_sound N _ _ hf
  have hcu : ChainSeg s.m_items s.m_usedHead ul none := chain?_sound N _ _ hu
  have hfh : s.m_freeHead = some nf := hcf.head_eq
  rw [hfh] at hcf
  obtain ⟨itf, hgetf, hrestf⟩ := hcf.cons_inv
  obtain ⟨hndu, hndf, hdisj⟩ := nodup_split hnd
  have hnfu : nf ∉ ul := fun hm => hdisj nf hm (List.mem_cons_self nf fl')
  have hnff : nf ∉ fl' := (List.nodup_cons.mp hndf).1
  have hnflt : nf < s.m_items.length := by
    obtain ⟨hlt, -⟩ := List.getElem?_eq_some.mp hgetf
    exact hlt
  simp only [FixedLengthList.push, hfh]
  refine ⟨trivial, ?_, ?_, ?_⟩
  · apply WFl_of_chains
    · simpa using hlen
    · exact ChainSeg.cons
        (by rw [List.getElem?_set_eq_of_lt _ hnflt])
        (hcu.set_not_mem hnfu)
    · rw [nthItem_of_getElem? hgetf]
      exact hrestf.set_not_mem hnff
    · simpa using hcnt
    · simp at hsum ⊢
      omega
    · exact (List.Perm.nodup_iff List.perm_middle).mp hnd
    · cases ul with
      | nil =>
        rw [List.getLast?_nil] at htl
        simp [htl]
      | cons u ul' =>
        have hgl : (u :: ul').getLast? ≠ none := by
          simp [List.getLast?_eq_none_iff]
        rw [htl, List.getLast?_cons_cons, if_neg hgl]
  · simp only [vals, List.map_cons]
    rw [nthItem_set_eq hnflt]
    refine congrArg₂ _ rfl ?_
    exact vals_set_not_mem _ hnfu
  · intro j hj
    exact nthItem_set_ne (Ne.symm hj)

theorem ChainSeg.ne_none {T : Type} {a : List (FixedLengthListItem T)}
    {h h' : Option Nat} {l : List Nat} (hc : ChainSeg a h l h')
    (hl : l ≠ []) : h ≠ none := by
  cases hc with
  | nil => exact absurd rfl hl
  | cons hget hrest => simp

theorem ChainSeg.setForward_not_mem {T : Type}
    {a : List (FixedLengthListItem T)} {h h' : Option Nat} {l : List Nat}
    {j : Nat} {f : Option Nat} (hc : ChainSeg a h l h') (hj : j ∉ l) :
    ChainSeg (setForward a j f) h l h' := by
  rw [setForward]
  exact hc.set_not_mem hj

theorem getElem?_setForward_eq {T : Type} {a : List (FixedLengthListItem T)}
    {j : Nat} (f : Option Nat) (h : j < a.length) :
    (setForward a j f)[j]? = some ⟨f, (nthItem a j).m_item⟩ := by
  rw [setForward, List.getElem?_set_eq_of_lt _ h]

theorem getElem?_setForward_ne {T : Type} {a : List (FixedLengthListItem T)}
    {i j : Nat} (f : Option Nat) (h : j ≠ i) :
    (setForward a j f)[i]? = a[i]? := by
  rw [setForward, List.getElem?_set_ne h]

theorem vals_append {T : Type} (a : List (FixedLengthListItem T))
    (l₁ l₂ : List Nat) : vals a (l₁ ++ l₂) = vals a l₁ ++ vals a l₂ :=
  List.map_append _ _ _

/-- Characterisation of a successful `queue` on a well-formed state with a
non-empty free stack: it succeeds, the popped free slot is appended at the
used tail holding the queued value, and no other slot's stored value
changes. -/
theorem queue_spec {T : Type} {N : Nat} (s : FixedLengthList T N)
    (ul fl' : List Nat) (nf : Nat) (v : T)
    (hwf : WFl s ul (nf :: fl')) :
    (s.queue v).1 = true ∧
    WFl (s.queue v).2 (ul ++ [nf]) fl' ∧
    vals (s.queue v).2.m_items (ul ++ [nf]) = vals s.m_items ul ++ [some v] ∧
    ∀ j, j ≠ nf →
      (nthItem (s.queue v).2.m_items j).m_item =
        (nthItem s.m_items j).m_item := by
  obtain ⟨hlen, hu, hf, hcnt, hsum, hnd, htl⟩ := hwf
  have hcf : ChainSeg s.m_items s.m_freeHead (nf :: fl') none :=
    chain?_sound N _ _ hf
  have hcu : ChainSeg s.m_items s.m_usedHead ul none := chain?_sound N _ _ hu
  have hfh : s.m_freeHead = some nf := hcf.head_eq
  rw [hfh] at hcf
  obtain ⟨itf, hgetf, hrestf⟩ := hcf.cons_inv
  obtain ⟨hndu, hndf, hdisj⟩ := nodup_split hnd
  have hnfu : nf ∉ ul := fun hm => hdisj nf hm (List.mem_cons_self nf fl')
  have hnff : nf ∉ fl' := (List.nodup_cons.mp hndf).1
  have hnflt : nf < s.m_items.length := by
    obtain ⟨hlt, -⟩ := List.getElem?_eq_some.mp hgetf
    exact hlt
  rcases List.eq_nil_or_concat ul with rfl | ⟨ul₀, t, rfl⟩
  · -- used list was empty: the slot becomes both head and tail
    have hh : s.m_usedHead = none := (hcu.nil_inv).symm
    have htn : s.m_usedTail = none := by simpa using htl
    simp only [FixedLengthList.queue, hfh, htn, hh, if_pos rfl]
    refine ⟨trivial, ?_, ?_, ?_⟩
    · apply WFl_of_chains
      · simpa using hlen
      · exact ChainSeg.cons (by rw [List.getElem?_set_eq_of_lt _ hnflt])
          (ChainSeg.nil none)
      · rw [nthItem_of_getElem? hgetf]
        exact hrestf.set_not_mem hnff
      · simpa using hcnt
      · simp at hsum ⊢
        omega
      · simpa using hnd
      · rfl
    · simp only [vals, List.map_cons, List.map_nil, List.nil_append]
      rw [nthItem_set_eq hnflt]
    · intro j hj
      rw [nthItem_set_ne (Ne.symm hj)]
  · -- used list was non-empty: link the old tail forward to the new slot
    rw [List.concat_eq_append] at *
    have htt : s.m_usedTail = some t := by rw [htl, List.getLast?_concat]
    have hhne : s.m_usedHead ≠ none := hcu.ne_none (by simp)
    obtain ⟨ht', hseg₀, hsegt⟩ := ChainSeg.split ul₀ hcu
    have hht' : ht' = some t := hsegt.head_eq
    rw [hht'] at hsegt hseg₀
    obtain ⟨itt, hgett, hrestt⟩ := hsegt.cons_inv
    have hfwdt : itt.m_forward = none := (hrestt.nil_inv).symm
    have htlt : t < s.m_items.length := by
      obtain ⟨hlt, -⟩ := List.getElem?_eq_some.mp hgett
      exact hlt
    have htul : t ∈ ul₀ ++ [t] := by simp
    have htnf : t ≠ nf := fun he => hdisj t htul (by simp [he])
    have htul₀ : t ∉ ul₀ := by
      have h3 := (List.nodup_append.mp hndu).2.2
      intro hm
      exact h3 hm (by simp)
    have hnful₀ : nf ∉ ul₀ := fun hm => hnfu (by simp [hm])
    have htf : t ∉ fl' := fun hm => hdisj t htul (by simp [hm])
    simp only [FixedLengthList.queue, hfh, htt, if_neg hhne]
    have hseg₀n : ChainSeg
        (setForward (s.m_items.set nf ⟨none, some v⟩) t (some nf))
        s.m_usedHead ul₀ (some t) :=
      (hseg₀.set_not_mem hnful₀).setForward_not_mem htul₀
    have hct : (setForward (s.m_items.set nf ⟨none, some v⟩) t
        (some nf))[t]? =
        some ⟨some nf, (nthItem (s.m_items.set nf ⟨none, some v⟩) t).m_item⟩ :=
      getElem?_setForward_eq _ (by simpa using htlt)
    have hcnf : (setForward (s.m_items.set nf ⟨none, some v⟩) t
        (some nf))[nf]? = some ⟨none, some v⟩ := by
      rw [getElem?_setForward_ne _ htnf, List.getElem?_set_eq_of_lt _ hnflt]
    refine ⟨trivial, ?_, ?_, ?_⟩
    · apply WFl_of_chains
      · simp [setForward, hlen]
      · rw [List.append_assoc]
        exact ChainSeg.append hseg₀n
          (ChainSeg.cons hct (ChainSeg.cons hcnf (ChainSeg.nil none)))
      · rw [nthItem_of_getElem? hgetf]
        exact (hrestf.set_not_mem hnff).setForward_not_mem htf
      · simpa using hcnt
      · simp at hsum ⊢
        omega
      · rw [List.append_assoc]
        simpa using hnd
      · rw [List.getLast?_concat]
    · rw [vals_append, vals_setForward, vals_set_not_mem _ hnfu]
      refine congrArg₂ _ rfl ?_
      simp only [vals, List.map_cons, List.map_nil]
      rw [nthItem_setForward_item, nthItem_set_eq hnflt]
    · intro j hj
      rw [nthItem_setForward_item, nthItem_set_ne (Ne.symm hj)]

theorem push_fail {T : Type} {N : Nat} (s : FixedLengthList T N) (v : T)
    (h : s.m_freeHead = none) : s.push v = (false, s) := by
  simp [FixedLengthList.push, h]

theorem queue_fail {T : Type} {N : Nat} (s : FixedLengthList T N) (v : T)
    (h : s.m_freeHead = none) : s.queue v = (false, s) := by
  simp [FixedLengthList.queue, h]

theorem pop_fail {T : Type} {N : Nat} (s : FixedLengthList T N)
    (out : Option T) (h : s.m_usedHead = none) :
    s.pop out = (false, s, out) := by
  simp [FixedLengthList.pop, h]

theorem dequeue_fail {T : Type} {N : Nat} (s : FixedLengthList T N)
    (out : Option T) (h : s.m_usedTail = none) :
    s.dequeue out = (false, s, out) := by
  simp [FixedLengthList.dequeue, h]

theorem WFl_freeHead_none {T : Type} {N : Nat} {s : FixedLengthList T N}
    {ul : List Nat} (hwf : WFl s ul []) : s.m_freeHead = none :=
  ((chain?_sound N _ _ hwf.2.2.1).nil_inv).symm

theorem WFl_usedHead_none {T : Type} {N : Nat} {s : FixedLengthList T N}
    {fl : List Nat} (hwf : WFl s [] fl) :
    s.m_usedHead = none ∧ s.m_usedTail = none :=
  ⟨((chain?_sound N _ _ hwf.2.1).nil_inv).symm, by simpa using hwf.2.2.2.2.2.2⟩

theorem WFl_used_le {T : Type} {N : Nat} {s : FixedLengthList T N}
    {ul fl : List Nat} (hwf : WFl s ul fl) : s.used ≤ N := by
  obtain ⟨-, -, -, hcnt, hsum, -, -⟩ := hwf
  simp only [FixedLengthList.used]
  omega

/-- Characterisation of a successful `pop` on a well-formed state with a
non-empty used list: it succeeds, the head slot's value is written to the
output location, the head slot moves to the free stack, and every other
slot is untouched. -/
theorem pop_spec {T : Type} {N : Nat} (s : FixedLengthList T N)
    (hd : Nat) (ul' fl : List Nat) (out : Option T)
    (hwf : WFl s (hd :: ul') fl) :
    (s.pop out).1 = true ∧
    (s.pop out).2.2 = (nthItem s.m_items hd).m_item ∧
    WFl (s.pop out).2.1 ul' (hd :: fl) ∧
    ∀ j, j ≠ hd →
      nthItem (s.pop out).2.1.m_items j = nthItem s.m_items j := by
  obtain ⟨hlen, hu, hf, hcnt, hsum, hnd, htl⟩ := hwf
  have hcu : ChainSeg s.m_items s.m_usedHead (hd :: ul') none :=
    chain?_sound N _ _ hu
  have hcf : ChainSeg s.m_items s.m_freeHead fl none := chain?_sound N _ _ hf
  have hh : s.m_usedHead = some hd := hcu.head_eq
  rw [hh] at hcu
  obtain ⟨ith, hgeth, hresth⟩ := hcu.cons_inv
  obtain ⟨hndu, hndf, hdisj⟩ := nodup_split hnd
  have hhdul : hd ∉ ul' := (List.nodup_cons.mp hndu).1
  have hhdf : hd ∉ fl := hdisj hd (List.mem_cons_self hd ul')
  have hhdlt : hd < s.m_items.length := by
    obtain ⟨hlt, -⟩ := List.getElem?_eq_some.mp hgeth
    exact hlt
  simp only [FixedLengthList.pop, hh]
  refine ⟨trivial, trivial, ?_, ?_⟩
  · apply WFl_of_chains
    · simp [setForward, hlen]
    · rw [nthItem_of_getElem? hgeth]
      exact hresth.setForward_not_mem hhdul
    · exact ChainSeg.cons (getElem?_setForward_eq _ hhdlt)
        (hcf.setForward_not_mem hhdf)
    · simp only [hcnt, List.length_cons]
      omega
    · simp at hsum ⊢
      omega
    · exact (List.Perm.nodup_iff List.perm_middle).mpr hnd
    · cases ul' with
      | nil =>
        have : s.m_usedTail = some hd := by simpa using htl
        rw [if_pos this, List.getLast?_nil]
      | cons c ul'' =>
        have hne : s.m_usedTail ≠ some hd := by
          rw [htl, List.getLast?_cons_cons]
          intro hcon
          exact hhdul (List.mem_of_mem_getLast? hcon)
        rw [if_neg hne, htl, List.getLast?_cons_cons]
  · intro j hj
    rw [setForward, nthItem_set_ne (Ne.symm hj)]

/-- Correctness of the predecessor scan of `remove_node`: on a terminating
chain that ends with the two slots `p` then `t`, and in which `t` occurs
nowhere earlier, the scan finds `p`. -/
theorem find_pred_spec {T : Type} {a : List (FixedLengthListItem T)}
    {p t : Nat} :
    ∀ (l₁ : List Nat) (h : Option Nat),
      ChainSeg a h (l₁ ++ [p, t]) none → t ∉ l₁ ++ [p] →
      ∀ (fuel : Nat), l₁.length + 1 ≤ fuel → find_pred a t h fuel = some p
  | [], h, hc, hnt, fuel, hfuel => by
    have hh : h = some p := hc.head_eq
    subst hh
    obtain ⟨itp, hgetp, hrestp⟩ := hc.cons_inv
    have hfwd : itp.m_forward = some t := hrestp.head_eq
    match fuel, hfuel with
    | f + 1, _ =>
      rw [find_pred, nthItem_of_getElem? hgetp, if_pos hfwd]
  | q :: l₁, h, hc, hnt, fuel, hfuel => by
    have hh : h = some q := hc.head_eq
    subst hh
    obtain ⟨itq, hgetq, hrestq⟩ := hc.cons_inv
    have hne : itq.m_forward ≠ some t := by
      intro hcon
      rw [hcon] at hrestq
      cases hl₁ : l₁ with
      | nil =>
        rw [hl₁] at hrestq
        have htp : t = p := Option.some.inj hrestq.head_eq
        exact hnt (by simp [hl₁, htp])
      | cons x l₁' =>
        rw [hl₁] at hrestq
        have htx : t = x := Option.some.inj hrestq.head_eq
        exact hnt (by simp [hl₁, htx])
    match fuel, hfuel with
    | f + 1, hfuel =>
      rw [find_pred, nthItem_of_getElem? hgetq, if_neg hne]
      refine find_pred_spec l₁ _ hrestq ?_ f (by simpa using hfuel)
      intro hm
      exact hnt (by simp only [List.cons_append]; exact List.mem_cons_of_mem q hm)

theorem ChainSeg.head_mem {T : Type} {a : List (FixedLengthListItem T)}
    {h h' : Option Nat} {l : List Nat} (hc : ChainSeg a h l h')
    (hl : l ≠ []) : ∃ x ∈ l, h = some x := by
  cases hc with
  | nil => exact absurd rfl hl
  | @cons i it l' h' hget hrest => exact ⟨i, List.mem_cons_self i l', rfl⟩

/-- Characterisation of a successful `dequeue` on a well-formed state with
a non-empty used list: it succeeds, the tail slot's value is written to the
output location, the tail slot moves to the free stack, the predecessor (if
any) becomes the new tail, and no slot's stored value changes. -/
theorem dequeue_spec {T : Type} {N : Nat} (s : FixedLengthList T N)
    (t : Nat) (ul' fl : List Nat) (out : Option T)
    (hwf : WFl s (ul' ++ [t]) fl) :
    (s.dequeue out).1 = true ∧
    (s.dequeue out).2.2 = (nthItem s.m_items t).m_item ∧
    WFl (s.dequeue out).2.1 ul' (t :: fl) ∧
    ∀ j, (nthItem (s.dequeue out).2.1.m_items j).m_item =
      (nthItem s.m_items j).m_item := by
  obtain ⟨hlen, hu, hf, hcnt, hsum, hnd, htl⟩ := hwf
  have hcu : ChainSeg s.m_items s.m_usedHead (ul' ++ [t]) none :=
    chain?_sound N _ _ hu
  have hcf : ChainSeg s.m_items s.m_freeHead fl none := chain?_sound N _ _ hf
  have htt : s.m_usedTail = some t := by rw [htl, List.getLast?_concat]
  obtain ⟨hndu, hndf, hdisj⟩ := nodup_split hnd
  have htul : t ∈ ul' ++ [t] := by simp
  have htul' : t ∉ ul' := by
    have h3 := (List.nodup_append.mp hndu).2.2
    intro hm
    exact h3 hm (by simp)
  have htfl : t ∉ fl := hdisj t htul
  obtain ⟨htend, hsegU, hsegT⟩ := ChainSeg.split ul' hcu
  have hte : htend = some t := hsegT.head_eq
  rw [hte] at hsegT hsegU
  obtain ⟨itt, hgett, hrestt⟩ := hsegT.cons_inv
  have hfwdt : itt.m_forward = none := (hrestt.nil_inv).symm
  have htlt : t < s.m_items.length := by
    obtain ⟨hlt, -⟩ := List.getElem?_eq_some.mp hgett
    exact hlt
  simp only [FixedLengthList.dequeue, htt]
  rcases List.eq_nil_or_concat ul' with rfl | ⟨ul₀, p, rfl⟩
  · -- the tail was the only element
    have hh : s.m_usedHead = some t := (hsegU.nil_inv).symm
    simp only [FixedLengthList.remove_node, if_pos hh]
    refine ⟨trivial, trivial, ?_, ?_⟩
    · apply WFl_of_chains
      · simp [setForward, hlen]
      · exact ChainSeg.nil none
      · exact ChainSeg.cons (getElem?_setForward_eq _ htlt)
          (hcf.setForward_not_mem htfl)
      · simp at hcnt ⊢
        omega
      · simp at hsum ⊢
        omega
      · simpa using hnd
      · rw [List.getLast?_nil]
    · intro j
      rw [nthItem_setForward_item]
  · -- the tail had a predecessor, found by the scan
    rw [List.concat_eq_append] at *
    have hul'ne : ul₀ ++ [p] ≠ [] := by simp
    obtain ⟨x, hxmem, hxh⟩ := hsegU.head_mem hul'ne
    have hne : s.m_usedHead ≠ some t := by
      rw [hxh]
      intro hcon
      have hxt : x = t := Option.some.inj hcon
      exact htul' (hxt ▸ hxmem)
    have hcu' : ChainSeg s.m_items s.m_usedHead (ul₀ ++ [p, t]) none := by
      have he : ul₀ ++ [p, t] = (ul₀ ++ [p]) ++ [t] := by
        rw [List.append_assoc]
        rfl
      rw [he]
      exact hcu
    have hfp : find_pred s.m_items t s.m_usedHead N = some p := by
      apply find_pred_spec ul₀ _ hcu' htul'
      have h1 := List.length_append ul₀ [p]
      simp at hsum
      omega
    obtain ⟨hp', hseg₀, hsegp⟩ := ChainSeg.split ul₀ hsegU
    have hpp : hp' = some p := hsegp.head_eq
    rw [hpp] at hsegp hseg₀
    obtain ⟨itp, hgetp, hrestp⟩ := hsegp.cons_inv
    have hfwdp : itp.m_forward = some t := (hrestp.nil_inv).symm
    have hplt : p < s.m_items.length := by
      obtain ⟨hlt, -⟩ := List.getElem?_eq_some.mp hgetp
      exact hlt
    have hpul : p ∈ ul₀ ++ [p] := by simp
    have hpul₀ : p ∉ ul₀ := by
      have h3 := (List.nodup_append.mp (nodup_split hndu).1).2.2
      intro hm
      exact h3 hm (by simp)
    have hpt : p ≠ t := fun he => htul' (he ▸ hpul)
    have hpfl : p ∉ fl := hdisj p (by simp)
    have htul₀ : t ∉ ul₀ := fun hm => htul' (by simp [hm])
    simp only [FixedLengthList.remove_node, if_neg hne, hfp]
    refine ⟨trivial, trivial, ?_, ?_⟩
    · apply WFl_of_chains
      · simp [setForward, hlen]
      · have hcp : (setForward (setForward s.m_items p none) t
            s.m_freeHead)[p]? =
            some ⟨none, (nthItem s.m_items p).m_item⟩ := by
          rw [getElem?_setForward_ne _ (Ne.symm hpt),
            getElem?_setForward_eq _ hplt]
        exact ChainSeg.append
          ((hseg₀.setForward_not_mem hpul₀).setForward_not_mem htul₀)
          (ChainSeg.cons hcp (ChainSeg.nil none))
      · refine ChainSeg.cons (i := t)
          (getElem?_setForward_eq _ (by simpa [length_setForward] using htlt)) ?_
        exact (hcf.setForward_not_mem hpfl).setForward_not_mem htfl
      · simp only [hcnt, List.length_append, List.length_cons]
        simp
      · simp at hsum ⊢
        omega
      · rw [List.append_assoc] at hnd
        simpa using hnd
      · rw [List.getLast?_concat]
    · intro j
      rw [nthItem_setForward_item, nthItem_setForward_item]

theorem nodup_shuffle {A m₂ fl : List Nat} {p : Nat}
    (h : ((A ++ p :: m₂) ++ fl).Nodup) : ((A ++ m₂) ++ p :: fl).Nodup := by
  have h1 : (A ++ p :: m₂) ++ fl = A ++ p :: (m₂ ++ fl) := by
    simp [List.append_assoc]
  rw [h1] at h
  have h2 := (List.Perm.nodup_iff List.perm_middle).mp h
  refine (List.Perm.nodup_iff List.perm_middle).mpr ?_
  simpa [List.append_assoc] using h2

/-- Scan of `remove` when the sought value does occur: walking from `cur`
(which continues the used chain after the already-scanned prefix `pre`,
none of which matched), with `m₁` the not-yet-scanned non-matching slots
and `p` the first matching slot, the scan unlinks exactly `p`, moves it to
the free stack, decrements the counter and returns `true`; no slot's
stored value changes. -/
theorem remove_go_found {T : Type} {N : Nat} [DecidableEq T]
    (s : FixedLengthList T N) (v : T) (fl : List Nat) :
    ∀ (m₁ pre : List Nat) (p : Nat) (m₂ : List Nat)
      (cur : Option Nat) (fuel : Nat),
      WFl s (pre ++ m₁ ++ p :: m₂) fl →
      ChainSeg s.m_items s.m_usedHead pre cur →
      ChainSeg s.m_items cur (m₁ ++ p :: m₂) none →
      (∀ i ∈ m₁, (nthItem s.m_items i).m_item ≠ some v) →
      (nthItem s.m_items p).m_item = some v →
      (m₁ ++ p :: m₂).length ≤ fuel →
      (remove_go s v pre.getLast? cur fuel).1 = true ∧
      WFl (remove_go s v pre.getLast? cur fuel).2 (pre ++ m₁ ++ m₂)
        (p :: fl) ∧
      ∀ j, (nthItem (remove_go s v pre.getLast? cur fuel).2.m_items j).m_item
        = (nthItem s.m_items j).m_item
  | [], pre, p, m₂, cur, fuel, hwf, hpre, hrest, hm₁, hmatch, hfuel => by
    simp only [List.nil_append, List.append_nil] at hwf hrest hfuel ⊢
    obtain ⟨hlen, hu, hf, hcnt, hsum, hnd, htl⟩ := hwf
    have hcf : ChainSeg s.m_items s.m_freeHead fl none := chain?_sound N _ _ hf
    have hcp : cur = some p := hrest.head_eq
    subst hcp
    obtain ⟨itp, hgetp, hrestp⟩ := hrest.cons_inv
    have hplt : p < s.m_items.length := by
      obtain ⟨hlt, -⟩ := List.getElem?_eq_some.mp hgetp
      exact hlt
    obtain ⟨hndU, hndF, hdisj⟩ := nodup_split hnd
    obtain ⟨hndpre, hndpm, hdisj2⟩ := nodup_split hndU
    have hppre : p ∉ pre := fun hm => hdisj2 p hm (List.mem_cons_self p m₂)
    have hpm₂ : p ∉ m₂ := (List.nodup_cons.mp hndpm).1
    have hpfl : p ∉ fl := hdisj p (by simp)
    match fuel, hfuel with
    | f + 1, hfuel =>
      rw [remove_go, if_pos hmatch, nthItem_of_getElem? hgetp]
      rcases List.eq_nil_or_concat pre with rfl | ⟨pre₀, l, rfl⟩
      · -- p was the head of the used list
        have hh : s.m_usedHead = some p := (hpre.nil_inv).symm
        simp only [List.getLast?_nil, List.nil_append]
        rcases m₂ with _ | ⟨c, m₂'⟩
        · -- p was also the tail: the list becomes empty
          have hm2 : itp.m_forward = none := (hrestp.nil_inv).symm
          have htp : s.m_usedTail = some p := by simpa using htl
          rw [if_pos htp]
          refine ⟨trivial, ?_, ?_⟩
          · apply WFl_of_chains
            · simp [setForward, hlen]
            · rw [hm2]
              exact ChainSeg.nil none
            · exact ChainSeg.cons (getElem?_setForward_eq _ hplt)
                (hcf.setForward_not_mem hpfl)
            · simp at hcnt ⊢
              omega
            · simp at hsum ⊢
              omega
            · simpa using hnd
            · rw [List.getLast?_nil]
          · intro j
            rw [nthItem_setForward_item]
        · -- slots remain after p: the head advances
          have htp : s.m_usedTail ≠ some p := by
            rw [htl]
            simp only [List.nil_append, List.getLast?_cons_cons]
            intro hcon
            exact hpm₂ (List.mem_of_mem_getLast? hcon)
          rw [if_neg htp]
          refine ⟨trivial, ?_, ?_⟩
          · apply WFl_of_chains
            · simp [setForward, hlen]
            · exact hrestp.setForward_not_mem hpm₂
            · exact ChainSeg.cons (getElem?_setForward_eq _ hplt)
                (hcf.setForward_not_mem hpfl)
            · simp at hcnt ⊢
              omega
            · simp at hsum ⊢
              omega
            · simpa using nodup_shuffle (A := []) hnd
            · rw [htl]
              simp [List.getLast?_cons_cons]
          · intro j
            rw [nthItem_setForward_item]
      · -- p had a predecessor l, which is relinked past p
        rw [List.concat_eq_append] at *
        have hlpre : l ∈ pre₀ ++ [l] := by simp
        have hlp : l ≠ p := fun he => hppre (he ▸ hlpre)
        have hlm₂ : l ∉ m₂ := fun hm =>
          hdisj2 l hlpre (List.mem_cons_of_mem _ hm)
        have hlfl : l ∉ fl := hdisj l (List.mem_append_left _ hlpre)
        have hlpre₀ : l ∉ pre₀ := by
          have h3 := (List.nodup_append.mp hndpre).2.2
          intro hm
          exact h3 hm (by simp)
        obtain ⟨hl', hseg₀, hsegl⟩ := ChainSeg.split pre₀ hpre
        have hll : hl' = some l := hsegl.head_eq
        rw [hll] at hsegl hseg₀
        obtain ⟨itl, hgetl, hrestl⟩ := hsegl.cons_inv
        have hfwdl : itl.m_forward = some p := (hrestl.nil_inv).symm
        have hllt : l < s.m_items.length := by
          obtain ⟨hlt, -⟩ := List.getElem?_eq_some.mp hgetl
          exact hlt
        have hppre₀ : p ∉ pre₀ := fun hm => hppre (by simp [hm])
        have hchainl : (setForward (setForward s.m_items l itp.m_forward) p
            s.m_freeHead)[l]? = some ⟨itp.m_forward, itl.m_item⟩ := by
          rw [getElem?_setForward_ne _ (Ne.symm hlp),
            getElem?_setForward_eq _ hllt, nthItem_of_getElem? hgetl]
        have husedc : ChainSeg (setForward (setForward s.m_items l
            itp.m_forward) p s.m_freeHead) s.m_usedHead
            ((pre₀ ++ [l]) ++ m₂) none := by
          rw [List.append_assoc]
          exact ChainSeg.append
            ((hseg₀.setForward_not_mem hlpre₀).setForward_not_mem hppre₀)
            (ChainSeg.cons hchainl
              ((hrestp.setForward_not_mem hlm₂).setForward_not_mem hpm₂))
        have hfreec : ChainSeg (setForward (setForward s.m_items l
            itp.m_forward) p s.m_freeHead) (some p) (p :: fl) none := by
          refine ChainSeg.cons (i := p)
            (getElem?_setForward_eq _ (by rw [length_setForward]; exact hplt)) ?_
          exact (hcf.setForward_not_mem hlfl).setForward_not_mem hpfl
        split
        · rename_i heq
          rw [List.getLast?_concat] at heq
          simp at heq
        · rename_i l' heq
          rw [List.getLast?_concat] at heq
          have hle : l = l' := Option.some.inj heq
          subst hle
          rcases m₂ with _ | ⟨c, m₂'⟩
          · -- p was the tail: its predecessor becomes the tail
            have htp : s.m_usedTail = some p := by
              rw [htl, List.append_assoc]
              exact List.getLast?_append_of_ne_nil _ (by simp)
            simp only []
            rw [if_pos htp]
            refine ⟨trivial, ?_, ?_⟩
            · apply WFl_of_chains
              · simp [setForward, hlen]
              · simpa using husedc
              · exact hfreec
              · simp at hcnt ⊢
                omega
              · simp at hsum ⊢
                omega
              · exact nodup_shuffle (A := pre₀ ++ [l])
                  (by simpa [List.append_assoc] using hnd)
              · simp [List.getLast?_concat]
            · intro j
              rw [nthItem_setForward_item, nthItem_setForward_item]
          · -- p was not the tail: the tail is unchanged
            have htp : s.m_usedTail ≠ some p := by
              rw [htl, List.getLast?_append_of_ne_nil _ (by simp),
                List.getLast?_cons_cons]
              intro hcon
              exact hpm₂ (List.mem_of_mem_getLast? hcon)
            simp only []
            rw [if_neg htp]
            refine ⟨trivial, ?_, ?_⟩
            · apply WFl_of_chains
              · simp [setForward, hlen]
              · exact husedc
              · exact hfreec
              · simp at hcnt ⊢
                omega
              · simp at hsum ⊢
                omega
              · exact nodup_shuffle (A := pre₀ ++ [l])
                  (by simpa [List.append_assoc] using hnd)
              · rw [htl, List.getLast?_append_of_ne_nil _ (by simp),
                  List.getLast?_cons_cons,
                  List.getLast?_append_of_ne_nil _ (by simp)]
            · intro j
              rw [nthItem_setForward_item, nthItem_setForward_item]
  | r :: m₁, pre, p, m₂, cur, fuel, hwf, hpre, hrest, hm₁, hmatch, hfuel => by
    have hcr : cur = some r := hrest.head_eq
    subst hcr
    obtain ⟨itr, hgetr, hrestr⟩ := hrest.cons_inv
    have hrne : (nthItem s.m_items r).m_item ≠ some v :=
      hm₁ r (List.mem_cons_self r m₁)
    match fuel, hfuel with
    | f + 1, hfuel =>
      rw [remove_go, if_neg hrne, nthItem_of_getElem? hgetr]
      have hpre' : ChainSeg s.m_items s.m_usedHead (pre ++ [r])
          itr.m_forward :=
        hpre.append (ChainSeg.cons hgetr (ChainSeg.nil itr.m_forward))
      have hwf' : WFl s ((pre ++ [r]) ++ m₁ ++ p :: m₂) fl := by
        have he : (pre ++ [r]) ++ m₁ ++ p :: m₂ =
            pre ++ (r :: m₁) ++ p :: m₂ := by
          simp
        rw [he]
        exact hwf
      have hres := remove_go_found s v fl m₁ (pre ++ [r]) p m₂ itr.m_forward f
        hwf' hpre' hrestr (fun i hi => hm₁ i (List.mem_cons_of_mem r hi))
        hmatch (by simpa using hfuel)
      rw [List.getLast?_concat] at hres
      refine ⟨hres.1, ?_, hres.2.2⟩
      have he2 : (pre ++ [r]) ++ m₁ ++ m₂ = pre ++ (r :: m₁) ++ m₂ := by
        simp
      rw [← he2]
      exact hres.2.1

/-- Scan of `remove` when the sought value does not occur in the remaining
chain: the walk ends without touching the state and returns `false`. -/
theorem remove_go_not_found {T : Type} {N : Nat} [DecidableEq T]
    (s : FixedLengthList T N) (v : T) :
    ∀ (rest : List Nat) (last cur : Option Nat) (fuel : Nat),
      ChainSeg s.m_items cur rest none →
      (∀ i ∈ rest, (nthItem s.m_items i).m_item ≠ some v) →
      rest.length ≤ fuel →
      remove_go s v last cur fuel = (false, s)
  | [], last, cur, fuel, hc, hnone, hfuel => by
    have hcur : none = cur := hc.nil_inv
    rw [← hcur]
    cases fuel <;> rfl
  | r :: rest, last, cur, fuel, hc, hnone, hfuel => by
    have hh : cur = some r := hc.head_eq
    subst hh
    obtain ⟨itr, hgetr, hrestr⟩ := hc.cons_inv
    match fuel, hfuel with
    | f + 1, hfuel =>
      rw [remove_go, if_neg (hnone r (List.mem_cons_self r rest)),
        nthItem_of_getElem? hgetr]
      exact remove_go_not_found s v rest (some r) itr.m_forward f hrestr
        (fun i hi => hnone i (List.mem_cons_of_mem r hi))
        (by simpa using hfuel)

/-- The scan of `inList` finds a value exactly when some slot of the
walked chain stores it. -/
theorem inList_go_spec {T : Type} [DecidableEq T]
    {a : List (FixedLengthListItem T)} (v : T) :
    ∀ (l : List Nat) (h : Option Nat) (fuel : Nat),
      ChainSeg a h l none → l.length ≤ fuel →
      (inList_go a v h fuel = true ↔
        ∃ i ∈ l, (nthItem a i).m_item = some v)
  | [], h, fuel, hc, hfuel => by
    have hcur : none = h := hc.nil_inv
    rw [← hcur]
    cases fuel <;> simp [inList_go]
  | r :: l, h, fuel, hc, hfuel => by
    have hh : h = some r := hc.head_eq
    subst hh
    obtain ⟨itr, hgetr, hrestr⟩ := hc.cons_inv
    match fuel, hfuel with
    | f + 1, hfuel =>
      rw [inList_go, nthItem_of_getElem? hgetr]
      by_cases hm : itr.m_item = some v
      · rw [if_pos hm]
        constructor
        · intro _
          exact ⟨r, List.mem_cons_self r l,
            by rw [nthItem_of_getElem? hgetr]; exact hm⟩
        · intro _
          rfl
      · rw [if_neg hm]
        rw [inList_go_spec v l _ f hrestr (by simpa using hfuel)]
        constructor
        · rintro ⟨i, hi, hv⟩
          exact ⟨i, List.mem_cons_of_mem r hi, hv⟩
        · rintro ⟨i, hi, hv⟩
          rcases List.mem_cons.mp hi with rfl | hi'
          · rw [nthItem_of_getElem? hgetr] at hv
            exact absurd hv hm
          · exact ⟨i, hi', hv⟩

/-- On a well-formed state, `inList` reports exactly whether some used slot
stores the value. -/
theorem inList_spec {T : Type} {N : Nat} [DecidableEq T]
    (s : FixedLengthList T N) (v : T) (ul fl : List Nat)
    (hwf : WFl s ul fl) :
    (s.inList v = true ↔ ∃ i ∈ ul, (nthItem s.m_items i).m_item = some v) := by
  obtain ⟨hlen, hu, hf, hcnt, hsum, hnd, htl⟩ := hwf
  exact inList_go_spec v ul s.m_usedHead N (chain?_sound N _ _ hu)
    (by omega)

theorem ChainSeg.congr {T : Type} {a b : List (FixedLengthListItem T)}
    {h h' : Option Nat} {l : List Nat} (hc : ChainSeg a h l h')
    (hab : ∀ i ∈ l, b[i]? = a[i]?) : ChainSeg b h l h' := by
  induction hc with
  | nil => exact ChainSeg.nil _
  | @cons i it l' h' hget hrest ih =>
    exact ChainSeg.cons
      (by rw [hab i (List.mem_cons_self i l')]; exact hget)
      (ih fun j hj => hab j (List.mem_cons_of_mem i hj))

theorem range_drop (n m : Nat) :
    (List.range n).drop m = List.range' m (n - m) := by
  rcases le_or_lt m n with hmn | hnm
  · have h0 := List.range'_append 0 m (n - m) 1
    simp only [Nat.zero_add, Nat.one_mul] at h0
    have h1 : List.range n = List.range' 0 m ++ List.range' m (n - m) := by
      rw [List.range_eq_range', h0]
      congr 1
      omega
    have h2 : (List.range' 0 m).length = m := by simp
    rw [h1]
    have h3 := List.drop_left (List.range' 0 m) (List.range' m (n - m))
    rw [h2] at h3
    exact h3
  · rw [List.drop_eq_nil_of_le (by simpa using Nat.le_of_lt hnm)]
    have h3 : n - m = 0 := by omega
    rw [h3]
    rfl

/-- The forward links written by `clear` chain all slots from `k` to the
end of the pool. -/
theorem clear_chain {T : Type} {a : List (FixedLengthListItem T)} {N : Nat}
    (hlen : a.length = N) :
    ∀ (m k : Nat), 0 < m → k + m = N →
      ChainSeg (a.mapIdx (fun i it =>
          { it with m_forward := if i + 1 < N then some (i + 1) else none }))
        (some k) (List.range' k m) none
  | 0, k, hm, hkm => absurd hm (by omega)
  | m + 1, k, hm, hkm => by
    have hk : k < a.length := by omega
    have hget : (a.mapIdx (fun i it =>
        { it with m_forward := if i + 1 < N then some (i + 1) else none }))[k]? =
        some { a[k] with
          m_forward := if k + 1 < N then some (k + 1) else none } := by
      rw [List.getElem?_mapIdx, List.getElem?_eq_getElem hk]
      rfl
    cases m with
    | zero =>
      have hif : ¬ k + 1 < N := by omega
      rw [show List.range' k 1 = [k] from by simp [List.range']]
      refine ChainSeg.cons hget ?_
      simp only [hif, if_false]
      exact ChainSeg.nil none
    | succ m' =>
      have hif : k + 1 < N := by omega
      rw [List.range'_succ]
      refine ChainSeg.cons hget ?_
      simp only [hif, if_true]
      exact clear_chain hlen (m' + 1) (k + 1) (by omega) (by omega)

/-- On a pool of the right size, `clear` produces the canonical empty
well-formed state: no used slots, all slots free in array order. -/
theorem clear_spec {T : Type} {N : Nat} (s : FixedLengthList T N)
    (hlen : s.m_items.length = N) (hN : 0 < N) :
    WFl s.clear [] (List.range N) := by
  apply WFl_of_chains
  · simp [FixedLengthList.clear, List.length_mapIdx, hlen]
  · exact ChainSeg.nil none
  · rw [List.range_eq_range']
    exact clear_chain hlen N 0 hN (by omega)
  · rfl
  · simp
  · simpa using List.nodup_range N
  · rfl

/-- The default constructor yields the canonical empty well-formed
state. -/
theorem init_WF {T : Type} {N : Nat} (hN : 0 < N) :
    WFl (FixedLengthList.init T N) [] (List.range N) :=
  clear_spec _ (by simp) hN

/-- First constructor loop over consecutive indices `k .. k+n-1`, with a
previously-written slot `pr < k`: it stores the values in those slots in
order, chains them with forward links ending in null, links `pr` forward to
slot `k`, reports the last slot as tail and new `prev`, and touches no
other slot. -/
theorem initLoop_go {T : Type} :
    ∀ (n k : Nat) (ws : List T) (a : List (FixedLengthListItem T))
      (uh ut : Option Nat) (pr : Nat)
      (r : List (FixedLengthListItem T) × Option Nat × Option Nat × Option Nat),
      0 < n → n ≤ ws.length → k + n ≤ a.length → pr < k →
      initLoop a uh ut (some pr) ((List.range' k n).zip ws) = r →
      r.2.1 = uh ∧
      r.2.2.1 = some (k + n - 1) ∧
      r.2.2.2 = some (k + n - 1) ∧
      r.1.length = a.length ∧
      (∀ j, j ∉ List.range' k n → j ≠ pr → r.1[j]? = a[j]?) ∧
      r.1[pr]? = some ⟨some k, (nthItem a pr).m_item⟩ ∧
      ChainSeg r.1 (some k) (List.range' k n) none ∧
      vals r.1 (List.range' k n) = (ws.take n).map some
  | 0, k, ws, a, uh, ut, pr, r, hn, hws, hka, hpr, hr => absurd hn (by omega)
  | 1, k, ws, a, uh, ut, pr, r, hn, hws, hka, hpr, hr => by
    match ws, hws with
    | w :: ws', _ =>
      have hzip : (List.range' k 1).zip (w :: ws') = [(k, w)] := by
        simp [List.range']
      rw [hzip] at hr
      simp only [initLoop] at hr
      subst hr
      have hklt : k < a.length := by omega
      have hprk : pr ≠ k := by omega
      have hprlt : pr < (a.set k ⟨none, some w⟩).length := by
        simp
        omega
      refine ⟨rfl, rfl, rfl, by simp [setForward], ?_, ?_, ?_, ?_⟩
      · intro j hj hjpr
        have hjk : j ≠ k := by
          simp [List.range'] at hj
          exact hj
        rw [getElem?_setForward_ne _ (Ne.symm hjpr),
          List.getElem?_set_ne (Ne.symm hjk)]
      · rw [getElem?_setForward_eq _ hprlt, nthItem_set_ne (Ne.symm hprk)]
      · rw [show List.range' k 1 = [k] from by simp [List.range']]
        have hgk : (setForward (a.set k ⟨none, some w⟩) pr (some k))[k]? =
            some ⟨none, some w⟩ := by
          rw [getElem?_setForward_ne _ hprk,
            List.getElem?_set_eq_of_lt _ hklt]
        exact ChainSeg.cons hgk (ChainSeg.nil none)
      · rw [show List.range' k 1 = [k] from by simp [List.range']]
        simp only [vals, List.map_cons, List.map_nil, List.take_cons,
          List.take_zero]
        rw [nthItem_setForward_item, nthItem_set_eq hklt]
        rfl
  | n + 2, k, ws, a, uh, ut, pr, r, hn, hws, hka, hpr, hr => by
    match ws, hws with
    | w :: ws', hws =>
      have hzip : (List.range' k (n + 2)).zip (w :: ws') =
          (k, w) :: (List.range' (k + 1) (n + 1)).zip ws' := by
        rw [List.range'_succ]
        rfl
      rw [hzip] at hr
      simp only [initLoop] at hr
      have hklt : k < a.length := by omega
      have hprk : pr ≠ k := by omega
      obtain ⟨ih1, ih2, ih3, ih4, ih5, ih6, ih7, ih8⟩ :=
        initLoop_go (n + 1) (k + 1) ws'
          (setForward (a.set k ⟨none, some w⟩) pr (some k)) uh (some k) k r
          (by omega) (by simpa using hws)
          (by rw [length_setForward, List.length_set]; omega) (by omega) hr
      have hprmem : pr ∉ List.range' (k + 1) (n + 1) := by
        rw [List.mem_range'_1]
        omega
      have hkmem : k ∉ List.range' (k + 1) (n + 1) := by
        rw [List.mem_range'_1]
        omega
      have ha2k : (setForward (a.set k ⟨none, some w⟩) pr (some k))[k]? =
          some ⟨none, some w⟩ := by
        rw [getElem?_setForward_ne _ hprk, List.getElem?_set_eq_of_lt _ hklt]
      refine ⟨ih1, ?_, ?_, ?_, ?_, ?_, ?_, ?_⟩
      · rw [ih2]
        congr 1
        omega
      · rw [ih3]
        congr 1
        omega
      · rw [ih4]
        simp [setForward]
      · intro j hj hjpr
        rw [List.range'_succ, List.mem_cons] at hj
        push_neg at hj
        rw [ih5 j hj.2 hj.1, getElem?_setForward_ne _ (Ne.symm hjpr),
          List.getElem?_set_ne (Ne.symm hj.1)]
      · rw [ih5 pr hprmem hprk,
          getElem?_setForward_eq _ (by simp; omega),
          nthItem_set_ne (Ne.symm hprk)]
      · rw [List.range'_succ]
        exact ChainSeg.cons ih6 ih7
      · rw [List.range'_succ]
        simp only [vals, List.map_cons]
        have hk1 : (nthItem r.1 k).m_item = some w := by
          rw [nthItem_of_getElem? ih6, nthItem_of_getElem? ha2k]
        rw [hk1]
        simp only [vals] at ih8
        rw [ih8, List.take_succ_cons, List.map_cons]

theorem vals_congr {T : Type} {a b : List (FixedLengthListItem T)}
    (h : ∀ j, (nthItem b j).m_item = (nthItem a j).m_item)
    (l : List Nat) : vals b l = vals a l :=
  List.map_congr_left fun i _ => h i

/-- Second constructor loop over consecutive indices `k .. k+n-1`, with a
previously-written slot `pr < k`: it chains those slots with forward links
ending in null, links `pr` forward to slot `k`, preserves the free-head
argument and every stored value, and touches no other slot. -/
theorem freeLoop_go {T : Type} :
    ∀ (n k : Nat) (a : List (FixedLengthListItem T)) (fh : Option Nat)
      (pr : Nat) (r : List (FixedLengthListItem T) × Option Nat),
      0 < n → k + n ≤ a.length → pr < k →
      freeLoop a fh (some pr) (List.range' k n) = r →
      r.2 = fh ∧
      r.1.length = a.length ∧
      (∀ j, j ∉ List.range' k n → j ≠ pr → r.1[j]? = a[j]?) ∧
      r.1[pr]? = some ⟨some k, (nthItem a pr).m_item⟩ ∧
      ChainSeg r.1 (some k) (List.range' k n) none ∧
      ∀ j, (nthItem r.1 j).m_item = (nthItem a j).m_item
  | 0, k, a, fh, pr, r, hn, hka, hpr, hr => absurd hn (by omega)
  | 1, k, a, fh, pr, r, hn, hka, hpr, hr => by
    rw [show List.range' k 1 = [k] from by simp [List.range']] at hr
    simp only [freeLoop] at hr
    subst hr
    have hklt : k < a.length := by omega
    have hprk : pr ≠ k := by omega
    have hprlt : pr < (setForward a k none).length := by
      rw [length_setForward]
      omega
    refine ⟨rfl, by simp [setForward], ?_, ?_, ?_, ?_⟩
    · intro j hj hjpr
      have hjk : j ≠ k := by
        simp [List.range'] at hj
        exact hj
      rw [getElem?_setForward_ne _ (Ne.symm hjpr),
        getElem?_setForward_ne _ (Ne.symm hjk)]
    · rw [getElem?_setForward_eq _ hprlt]
      congr 2
      exact nthItem_setForward_item a k none pr
    · rw [show List.range' k 1 = [k] from by simp [List.range']]
      have hgk : (setForward (setForward a k none) pr (some k))[k]? =
          some ⟨none, (nthItem a k).m_item⟩ := by
        rw [getElem?_setForward_ne _ hprk, getElem?_setForward_eq _ hklt]
      exact ChainSeg.cons hgk (ChainSeg.nil none)
    · intro j
      rw [nthItem_setForward_item, nthItem_setForward_item]
  | n + 2, k, a, fh, pr, r, hn, hka, hpr, hr => by
    rw [List.range'_succ] at hr
    simp only [freeLoop] at hr
    have hklt : k < a.length := by omega
    have hprk : pr ≠ k := by omega
    obtain ⟨ih1, ih2, ih3, ih4, ih5, ih6⟩ :=
      freeLoop_go (n + 1) (k + 1)
        (setForward (setForward a k none) pr (some k)) fh k r
        (by omega) (by rw [length_setForward, length_setForward]; omega)
        (by omega) hr
    have hprmem : pr ∉ List.range' (k + 1) (n + 1) := by
      rw [List.mem_range'_1]
      omega
    have ha2k : (setForward (setForward a k none) pr (some k))[k]? =
        some ⟨none, (nthItem a k).m_item⟩ := by
      rw [getElem?_setForward_ne _ hprk, getElem?_setForward_eq _ hklt]
    refine ⟨ih1, ?_, ?_, ?_, ?_, ?_⟩
    · rw [ih2, length_setForward, length_setForward]
    · intro j hj hjpr
      rw [List.range'_succ, List.mem_cons] at hj
      push_neg at hj
      rw [ih3 j hj.2 hj.1, getElem?_setForward_ne _ (Ne.symm hjpr),
        getElem?_setForward_ne _ (Ne.symm hj.1)]
    · rw [ih3 pr hprmem hprk,
        getElem?_setForward_eq _ (by rw [length_setForward]; omega)]
      congr 2
      exact nthItem_setForward_item a k none pr
    · rw [List.range'_succ]
      exact ChainSeg.cons ih4 ih5
    · intro j
      rw [ih6 j, nthItem_setForward_item, nthItem_setForward_item]

/-- First constructor loop started with a null `prev` over indices
`0 .. n-1`: the first slot becomes the used head, and the loop behaves as
`initLoop_go` thereafter. -/
theorem initLoop_top {T : Type} :
    ∀ (n : Nat) (ws : List T) (a : List (FixedLengthListItem T))
      (uh ut : Option Nat)
      (r : List (FixedLengthListItem T) × Option Nat × Option Nat × Option Nat),
      0 < n → n ≤ ws.length → n ≤ a.length →
      initLoop a uh ut none ((List.range' 0 n).zip ws) = r →
      r.2.1 = some 0 ∧
      r.2.2.1 = some (n - 1) ∧
      r.1.length = a.length ∧
      (∀ j, j ∉ List.range' 0 n → r.1[j]? = a[j]?) ∧
      ChainSeg r.1 (some 0) (List.range' 0 n) none ∧
      vals r.1 (List.range' 0 n) = (ws.take n).map some
  | 0, ws, a, uh, ut, r, hn, hws, ha, hr => absurd hn (by omega)
  | 1, ws, a, uh, ut, r, hn, hws, ha, hr => by
    match ws, hws with
    | w :: ws', _ =>
      rw [show List.range' 0 1 = [0] from by simp [List.range']] at hr
      simp only [List.zip_cons_cons, List.zip_nil_left, initLoop] at hr
      subst hr
      have h0lt : 0 < a.length := by omega
      refine ⟨rfl, rfl, by simp, ?_, ?_, ?_⟩
      · intro j hj
        have hj0 : j ≠ 0 := by
          simp [List.range'] at hj
          exact hj
        rw [List.getElem?_set_ne (Ne.symm hj0)]
      · rw [show List.range' 0 1 = [0] from by simp [List.range']]
        exact ChainSeg.cons (List.getElem?_set_eq_of_lt _ h0lt)
          (ChainSeg.nil none)
      · rw [show List.range' 0 1 = [0] from by simp [List.range']]
        simp only [vals, List.map_cons, List.map_nil, List.take_cons,
          List.take_zero]
        rw [nthItem_set_eq h0lt]
        rfl
  | n + 2, ws, a, uh, ut, r, hn, hws, ha, hr => by
    match ws, hws with
    | w :: ws', hws =>
      rw [List.range'_succ] at hr
      simp only [List.zip_cons_cons, initLoop] at hr
      have h0lt : 0 < a.length := by omega
      obtain ⟨ih1, ih2, ih3, ih4, ih5, ih6, ih7, ih8⟩ :=
        initLoop_go (n + 1) 1 ws' (a.set 0 ⟨none, some w⟩) (some 0) (some 0)
          0 r (by omega) (by simpa using hws) (by simp; omega) (by omega) hr
      have h0mem : (0 : Nat) ∉ List.range' 1 (n + 1) := by
        rw [List.mem_range'_1]
        omega
      have ha10 : (a.set 0 ⟨none, some w⟩)[0]? = some ⟨none, some w⟩ :=
        List.getElem?_set_eq_of_lt _ h0lt
      refine ⟨ih1, ?_, ?_, ?_, ?_, ?_⟩
      · rw [ih2]
        congr 1
        omega
      · rw [ih4]
        simp
      · intro j hj
        rw [List.range'_succ, List.mem_cons] at hj
        push_neg at hj
        rw [ih5 j hj.2 hj.1, List.getElem?_set_ne (Ne.symm hj.1)]
      · rw [List.range'_succ]
        exact ChainSeg.cons ih6 ih7
      · rw [List.range'_succ]
        simp only [vals, List.map_cons]
        have hk1 : (nthItem r.1 0).m_item = some w := by
          rw [nthItem_of_getElem? ih6, nthItem_of_getElem? ha10]
        rw [hk1]
        simp only [vals] at ih8
        rw [ih8, List.take_succ_cons, List.map_cons]

/-- Second constructor loop started with a null `prev` over indices
`k .. k+n-1`: the first slot becomes the free head, and the loop behaves as
`freeLoop_go` thereafter. -/
theorem freeLoop_top {T : Type} :
    ∀ (n k : Nat) (a : List (FixedLengthListItem T)) (fh : Option Nat)
      (r : List (FixedLengthListItem T) × Option Nat),
      0 < n → k + n ≤ a.length →
      freeLoop a fh none (List.range' k n) = r →
      r.2 = some k ∧
      r.1.length = a.length ∧
      (∀ j, j ∉ List.range' k n → r.1[j]? = a[j]?) ∧
      ChainSeg r.1 (some k) (List.range' k n) none ∧
      ∀ j, (nthItem r.1 j).m_item = (nthItem a j).m_item
  | 0, k, a, fh, r, hn, hka, hr => absurd hn (by omega)
  | 1, k, a, fh, r, hn, hka, hr => by
    rw [show List.range' k 1 = [k] from by simp [List.range']] at hr
    simp only [freeLoop] at hr
    subst hr
    have hklt : k < a.length := by omega
    refine ⟨rfl, by simp [setForward], ?_, ?_, ?_⟩
    · intro j hj
      have hjk : j ≠ k := by
        simp [List.range'] at hj
        exact hj
      rw [getElem?_setForward_ne _ (Ne.symm hjk)]
    · rw [show List.range' k 1 = [k] from by simp [List.range']]
      exact ChainSeg.cons (getElem?_setForward_eq _ hklt) (ChainSeg.nil none)
    · intro j
      rw [nthItem_setForward_item]
  | n + 2, k, a, fh, r, hn, hka, hr => by
    rw [List.range'_succ] at hr
    simp only [freeLoop] at hr
    have hklt : k < a.length := by omega
    obtain ⟨ih1, ih2, ih3, ih4, ih5, ih6⟩ :=
      freeLoop_go (n + 1) (k + 1) (setForward a k none) (some k) k r
        (by omega) (by rw [length_setForward]; omega) (by omega) hr
    have hkmem : k ∉ List.range' (k + 1) (n + 1) := by
      rw [List.mem_range'_1]
      omega
    refine ⟨ih1, ?_, ?_, ?_, ?_⟩
    · rw [ih2, length_setForward]
    · intro j hj
      rw [List.range'_succ, List.mem_cons] at hj
      push_neg at hj
      rw [ih3 j hj.2 hj.1, getElem?_setForward_ne _ (Ne.symm hj.1)]
    · rw [List.range'_succ]
      exact ChainSeg.cons ih4 ih5
    · intro j
      rw [ih6 j, nthItem_setForward_item]

theorem range_getLast? {n : Nat} (hn : 0 < n) :
    (List.range' 0 n).getLast? = some (n - 1) := by
  cases n with
  | zero => omega
  | succ m =>
    rw [List.range'_1_concat, List.getLast?_concat]
    simp

/-- The initialising constructor produces a well-formed state whose used
list is the first `min N K` slots in array order, holding the first
`min N K` input values in input order, and whose free stack is the
remaining slots in array order. -/
theorem initWith_spec {T : Type} (N : Nat) (vs : List T) (hN : 0 < N) :
    WFl (FixedLengthList.initWith N vs) (List.range (min N vs.length))
      (List.range' (min N vs.length) (N - min N vs.length)) ∧
    vals (FixedLengthList.initWith N vs).m_items
      (List.range (min N vs.length)) =
      (vs.take (min N vs.length)).map some := by
  have hicN : min N vs.length ≤ N := Nat.min_le_left _ _
  have hicv : min N vs.length ≤ vs.length := Nat.min_le_right _ _
  have hrepl :
      (List.replicate (α := FixedLengthListItem T) N ⟨none, none⟩).length =
        N := by
    simp
  rcases Nat.eq_zero_or_pos (min N vs.length) with hic0 | hicpos
  · -- no initial values are consumed
    rw [hic0]
    simp only [FixedLengthList.initWith, hic0, List.range_zero,
      List.zip_nil_left, initLoop, Nat.sub_zero, List.drop_zero]
    rw [List.range_eq_range']
    obtain ⟨hB1, hB2, hB3, hB4, hB5⟩ :=
      freeLoop_top N 0 (List.replicate N ⟨none, none⟩) none _ hN
        (by simp) rfl
    constructor
    · apply WFl_of_chains
      · rw [hB2, hrepl]
      · exact ChainSeg.nil none
      · rw [hB1]
        exact hB4
      · rfl
      · simp
      · simpa using List.nodup_range' 0 N
      · rfl
    · simp [vals]
  · -- at least one initial value
    simp only [FixedLengthList.initWith]
    rw [List.range_eq_range', range_drop]
    obtain ⟨hA1, hA2, hA3, hA4, hA5, hA6⟩ :=
      initLoop_top (min N vs.length) vs (List.replicate N ⟨none, none⟩)
        none none _ hicpos hicv (by rw [hrepl]; exact hicN) rfl
    rcases Nat.eq_zero_or_pos (N - min N vs.length) with hNic | hNicpos
    · -- the initial values fill the pool: empty free stack
      rw [hNic]
      rw [show List.range' (min N vs.length) 0 = [] from rfl]
      simp only [freeLoop]
      constructor
      · apply WFl_of_chains
        · rw [hA3, hrepl]
        · rw [hA1]
          exact hA5
        · exact ChainSeg.nil none
        · simp
        · simp only [List.length_range', List.length_nil]
          omega
        · simpa using List.nodup_range' 0 (min N vs.length)
        · rw [hA2, range_getLast? hicpos]
      · exact hA6
    · -- some slots remain free
      obtain ⟨hB1, hB2, hB3, hB4, hB5⟩ :=
        freeLoop_top (N - min N vs.length) (min N vs.length) _ none _
          hNicpos (by rw [hA3, hrepl]; omega) rfl
      have hused : ∀ i ∈ List.range' 0 (min N vs.length),
          i ∉ List.range' (min N vs.length) (N - min N vs.length) := by
        intro i hi
        rw [List.mem_range'_1] at hi ⊢
        omega
      constructor
      · apply WFl_of_chains
        · rw [hB2, hA3, hrepl]
        · rw [hA1]
          exact hA5.congr fun i hi => hB3 i (hused i hi)
        · rw [hB1]
          exact hB4
        · simp
        · simp only [List.length_range']
          omega
        · have hr := List.range'_append 0 (min N vs.length)
            (N - min N vs.length) 1
          simp only [Nat.zero_add, Nat.one_mul] at hr
          rw [hr, show N - min N vs.length + min N vs.length = N from by omega]
          exact List.nodup_range' 0 N
        · rw [hA2, range_getLast? hicpos]
      · rw [vals_congr hB5]
        exact hA6

theorem plusEq_end {T : Type} {N : Nat} (s : FixedLengthList T N) :
    ∀ (n : Nat), FixedLengthListIter.plusEq s ⟨none⟩ n = ⟨none⟩
  | 0 => rfl
  | _ + 1 => rfl

/-- Walking `operator+=` along a terminating chain: after `n` steps the
cursor sits at the pointer to the `n`-th remaining slot, and at the null
sentinel once the chain is exhausted. -/
theorem plusEq_spec {T : Type} {N : Nat} {s : FixedLengthList T N} :
    ∀ (l : List Nat) (cur : Option Nat), ChainSeg s.m_items cur l none →
      ∀ (n : Nat), FixedLengthListIter.plusEq s ⟨cur⟩ n = ⟨(l.drop n).head?⟩
  | [], cur, hc, n => by
    have hcur : none = cur := hc.nil_inv
    rw [← hcur, plusEq_end, List.drop_nil]
    rfl
  | i :: l, cur, hc, 0 => by
    have hcur : cur = some i := hc.head_eq
    rw [hcur]
    rfl
  | i :: l, cur, hc, n + 1 => by
    have hcur : cur = some i := hc.head_eq
    subst hcur
    obtain ⟨it, hget, hrest⟩ := hc.cons_inv
    simp only [FixedLengthListIter.plusEq]
    rw [nthItem_of_getElem? hget, plusEq_spec l it.m_forward hrest n]
    rfl

/-- The full traversal collects exactly the values of the walked chain. -/
theorem iterToList_spec {T : Type} {a : List (FixedLengthListItem T)} :
    ∀ (l : List Nat) (cur : Option Nat) (fuel : Nat),
      ChainSeg a cur l none → l.length ≤ fuel →
      iterToList a cur fuel = vals a l
  | [], cur, fuel, hc, hfuel => by
    have hcur : none = cur := hc.nil_inv
    rw [← hcur]
    cases fuel <;> rfl
  | i :: l, cur, fuel, hc, hfuel => by
    have hcur : cur = some i := hc.head_eq
    subst hcur
    obtain ⟨it, hget, hrest⟩ := hc.cons_inv
    match fuel, hfuel with
    | f + 1, hfuel =>
      rw [iterToList, nthItem_of_getElem? hget,
        iterToList_spec l it.m_forward f hrest (by simpa using hfuel)]
      simp only [vals, List.map_cons, nthItem_of_getElem? hget]

/-- Splitting a list at the first element satisfying a decidable
predicate. -/
theorem first_match_split {P : Nat → Prop} [DecidablePred P] :
    ∀ (l : List Nat),
      (∀ i ∈ l, ¬ P i) ∨
      ∃ l₁ p l₂, l = l₁ ++ p :: l₂ ∧ (∀ i ∈ l₁, ¬ P i) ∧ P p
  | [] => Or.inl (by simp)
  | x :: l => by
    by_cases hx : P x
    · exact Or.inr ⟨[], x, l, rfl, by simp, hx⟩
    · rcases first_match_split (P := P) l with hno | ⟨l₁, p, l₂, hsplit, hl₁, hp⟩
      · refine Or.inl ?_
        intro i hi
        rcases List.mem_cons.mp hi with rfl | hi'
        · exact hx
        · exact hno i hi'
      · refine Or.inr ⟨x :: l₁, p, l₂, by rw [hsplit]; rfl, ?_, hp⟩
        intro i hi
        rcases List.mem_cons.mp hi with rfl | hi'
        · exact hx
        · exact hl₁ i hi'

/-- Every public mutating operation preserves well-formedness. -/
theorem applyOp_WF {T : Type} {N : Nat} [DecidableEq T]
    {s : FixedLengthList T N} (hN : 0 < N) (hwf : WF s) (op : Op T) :
    WF (applyOp s op) := by
  obtain ⟨ul, fl, hwfl⟩ := hwf
  cases op with
  | push v =>
    cases fl with
    | nil =>
      rw [applyOp, show (s.push v).2 = s from by
        rw [push_fail s v (WFl_freeHead_none hwfl)]]
      exact ⟨ul, [], hwfl⟩
    | cons nf fl' =>
      exact ⟨nf :: ul, fl', (push_spec s ul fl' nf v hwfl).2.1⟩
  | queue v =>
    cases fl with
    | nil =>
      rw [applyOp, show (s.queue v).2 = s from by
        rw [queue_fail s v (WFl_freeHead_none hwfl)]]
      exact ⟨ul, [], hwfl⟩
    | cons nf fl' =>
      exact ⟨ul ++ [nf], fl', (queue_spec s ul fl' nf v hwfl).2.1⟩
  | pop =>
    cases ul with
    | nil =>
      rw [applyOp, show (s.pop none).2.1 = s from by
        rw [pop_fail s none (WFl_usedHead_none hwfl).1]]
      exact ⟨[], fl, hwfl⟩
    | cons hd ul' =>
      exact ⟨ul', hd :: fl, (pop_spec s hd ul' fl none hwfl).2.2.1⟩
  | dequeue =>
    rcases List.eq_nil_or_concat ul with rfl | ⟨ul', t, rfl⟩
    · rw [applyOp, show (s.dequeue none).2.1 = s from by
        rw [dequeue_fail s none (WFl_usedHead_none hwfl).2]]
      exact ⟨[], fl, hwfl⟩
    · rw [List.concat_eq_append] at hwfl
      exact ⟨ul', t :: fl, (dequeue_spec s t ul' fl none hwfl).2.2.1⟩
  | remove v =>
    rcases first_match_split
        (P := fun i => (nthItem s.m_items i).m_item = some v) ul with
      hno | ⟨l₁, p, l₂, hsplit, hl₁, hp⟩
    · rw [applyOp, show (s.remove v).2 = s from by
        rw [FixedLengthList.remove, remove_go_not_found s v ul none
          s.m_usedHead N (chain?_sound N _ _ hwfl.2.1) hno
          (by have h5 := hwfl.2.2.2.2.1; omega)]]
      exact ⟨ul, fl, hwfl⟩
    · subst hsplit
      have hres := remove_go_found s v fl l₁ [] p l₂ s.m_usedHead N
        (by simpa using hwfl) (ChainSeg.nil s.m_usedHead)
        (chain?_sound N _ _ hwfl.2.1) hl₁ hp
        (by have h5 := hwfl.2.2.2.2.1; omega)
      exact ⟨[] ++ l₁ ++ l₂, p :: fl, hres.2.1⟩
  | clear =>
    exact ⟨[], List.range N, clear_spec s hwfl.1 hN⟩

/-- Any sequence of public mutating operations preserves
well-formedness. -/
theorem runOps_WF {T : Type} {N : Nat} [DecidableEq T] (hN : 0 < N) :
    ∀ (ops : List (Op T)) (s : FixedLengthList T N), WF s →
      WF (runOps s ops)
  | [], s, hwf => hwf
  | op :: ops, s, hwf =>
    runOps_WF hN ops (applyOp s op) (applyOp_WF hN hwf op)

theorem chain?_none {T : Type} (a : List (FixedLengthListItem T))
    (fuel : Nat) : chain? a none fuel = some [] := by
  cases fuel <;> rfl

/-- Queueing a sequence of values appends them, in order, at the back of
the used list. -/
theorem runQueues_spec {T : Type} {N : Nat} :
    ∀ (vs : List T) (s : FixedLengthList T N) (ul fl : List Nat),
      WFl s ul fl → vs.length ≤ fl.length →
      ∃ ul' fl', WFl (runQueues s vs) ul' fl' ∧
        vals (runQueues s vs).m_items ul' =
          vals s.m_items ul ++ vs.map some ∧
        ul'.length = ul.length + vs.length
  | [], s, ul, fl, hwf, hle => ⟨ul, fl, hwf, by simp [runQueues], by simp⟩
  | v :: vs, s, ul, fl, hwf, hle => by
    cases fl with
    | nil => simp at hle
    | cons nf fl' =>
      obtain ⟨h1, h2, h3, h4⟩ := queue_spec s ul fl' nf v hwf
      obtain ⟨ul', fl'', hwf', hvals, hlen⟩ :=
        runQueues_spec vs (s.queue v).2 (ul ++ [nf]) fl' h2
          (by simpa using hle)
      refine ⟨ul', fl'', hwf', ?_, ?_⟩
      · rw [show runQueues s (v :: vs) = runQueues (s.queue v).2 vs from rfl,
          hvals, h3, List.append_assoc]
        rfl
      · rw [hlen]
        simp
        omega

/-- Dequeueing as many times as the used list holds values returns them,
each call succeeding, in reverse used-list order (the tail first). -/
theorem dequeueDrain_spec {T : Type} {N : Nat} :
    ∀ (n : Nat) (s : FixedLengthList T N) (ul fl : List Nat),
      WFl s ul fl → ul.length = n →
      dequeueDrain s n =
        (vals s.m_items ul).reverse.map (fun w => (true, w))
  | 0, s, ul, fl, hwf, hn => by
    have hul : ul = [] := List.eq_nil_of_length_eq_zero hn
    subst hul
    simp [dequeueDrain, vals]
  | n + 1, s, ul, fl, hwf, hn => by
    rcases List.eq_nil_or_concat ul with rfl | ⟨ul', t, rfl⟩
    · simp at hn
    · rw [List.concat_eq_append] at *
      obtain ⟨hd1, hd2, hwf', hframe⟩ := dequeue_spec s t ul' fl none hwf
      rw [dequeueDrain]
      rw [hd1, hd2]
      rw [dequeueDrain_spec n (s.dequeue none).2.1 ul' (t :: fl) hwf'
        (by simp at hn; omega)]
      rw [vals_congr hframe ul', vals_append]
      simp [vals]

/-- Claim C1, counterexample: after `queue(22)`, `queue(33)`, `queue(44)`
on a freshly constructed capacity-20 list, the three (successful) dequeues
yield 44, 33, 22 — not 22, 33, 44 as the claim states.  `dequeue` removes
the tail, the same end at which `queue` inserts; the repository's own test
exercises the 22, 33, 44 order with `push` (head insertion), not
`queue`. -/
theorem C1_counterexample :
    dequeueDrain (runQueues (FixedLengthList.init Nat 20) [22, 33, 44]) 3 =
      [(true, some 44), (true, some 33), (true, some 22)] ∧
    dequeueDrain (runQueues (FixedLengthList.init Nat 20) [22, 33, 44]) 3 ≠
      [(true, some 22), (true, some 33), (true, some 44)] := by
  constructor
  · decide
  · decide

/-- Claim C1 (amended): for every sequence of queue(v1), ..., queue(vk)
applied to a freshly constructed list (k ≤ N), a following sequence of k
dequeue calls succeeds at every call and returns the values in LIFO order
vk, ..., v1 — `dequeue` removes at the tail, where `queue` inserts — so in
particular after queue(22), queue(33), queue(44) the three dequeues yield
44, 33, 22 in that order. -/
theorem C1_queue_dequeue_lifo {T : Type} (N : Nat) (vs : List T)
    (hN : 0 < N) (hlen : vs.length ≤ N) :
    dequeueDrain (runQueues (FixedLengthList.init T N) vs) vs.length =
      vs.reverse.map (fun v => (true, some v)) := by
  obtain ⟨ul', fl', hwf', hvals, hulen⟩ :=
    runQueues_spec vs (FixedLengthList.init T N) [] (List.range N)
      (init_WF hN) (by simpa using hlen)
  have hv : vals (runQueues (FixedLengthList.init T N) vs).m_items ul' =
      vs.map some := by
    rw [hvals]
    simp [vals]
  rw [show vs.length = ul'.length from by rw [hulen]; simp]
  rw [dequeueDrain_spec ul'.length _ ul' fl' hwf' rfl, hv]
  rw [← List.map_reverse, List.map_map]
  rfl

/-- Witness for C1 (amended claim), instantiated at capacity 3 with queued
values 1, 2: the dequeues yield 2 then 1. -/
theorem C1_queue_dequeue_lifo_witness :
    dequeueDrain (runQueues (FixedLengthList.init Nat 3) [1, 2]) 2 =
      [(true, some 2), (true, some 1)] :=
  C1_queue_dequeue_lifo 3 [1, 2] (by decide) (by decide)

/-- Claim C2, counterexample: pre- and post-increment applied to the
`end()` iterator of a capacity-20 list dereference the null pointer
(result `none`, undefined behaviour in the C++) instead of performing the
claimed bounded no-op; only `operator+=` checks for the sentinel. -/
theorem C2_counterexample :
    FixedLengthListIter.incr (FixedLengthList.init Nat 20)
        ((FixedLengthList.init Nat 20).endIter) = none ∧
    FixedLengthListIter.incrPost (FixedLengthList.init Nat 20)
        ((FixedLengthList.init Nat 20).endIter) = none ∧
    (none : Option (FixedLengthListIter Nat 20)) ≠
      some ((FixedLengthList.init Nat 20).endIter) :=
  ⟨rfl, rfl, by decide⟩

/-- Claim C2 (amended): advancing an iterator that is not at `end()`
follows the forward link, for pre-increment, post-increment and `+=`;
`operator+=` is bounded — it stops at the end sentinel when advancing past
the tail and is a no-op on an already-end cursor — while `operator++` (pre
and post) on an already-end cursor dereferences a null pointer (undefined
behaviour, modelled as `none`). -/
theorem C2_bounded_advance {T : Type} {N : Nat} :
    (∀ (s : FixedLengthList T N) (i : Nat),
      FixedLengthListIter.incr s ⟨some i⟩ =
        some ⟨(nthItem s.m_items i).m_forward⟩ ∧
      FixedLengthListIter.incrPost s ⟨some i⟩ =
        some (⟨some i⟩, ⟨(nthItem s.m_items i).m_forward⟩)) ∧
    (∀ (s : FixedLengthList T N) (it : FixedLengthListIter T N),
      it.m_item = none →
      FixedLengthListIter.incr s it = none ∧
      FixedLengthListIter.incrPost s it = none) ∧
    (∀ (s : FixedLengthList T N) (n : Nat),
      FixedLengthListIter.plusEq s (s.endIter) n = s.endIter) ∧
    (∀ (s : FixedLengthList T N) (ul fl : List Nat), WFl s ul fl →
      ∀ (n : Nat), FixedLengthListIter.plusEq s (s.begin) n =
        ⟨(ul.drop n).head?⟩) ∧
    (∀ (s : FixedLengthList T N) (ul fl : List Nat), WFl s ul fl →
      ∀ (n : Nat), ul.length ≤ n →
        FixedLengthListIter.plusEq s (s.begin) n = s.endIter) := by
  refine ⟨fun s i => ⟨rfl, rfl⟩, ?_, ?_, ?_, ?_⟩
  · intro s it hit
    obtain ⟨m⟩ := it
    subst hit
    exact ⟨rfl, rfl⟩
  · intro s n
    exact plusEq_end s n
  · intro s ul fl hwf n
    exact plusEq_spec ul s.m_usedHead (chain?_sound N _ _ hwf.2.1) n
  · intro s ul fl hwf n hn
    show FixedLengthListIter.plusEq s ⟨s.m_usedHead⟩ n =
      (⟨none⟩ : FixedLengthListIter T N)
    rw [plusEq_spec ul s.m_usedHead (chain?_sound N _ _ hwf.2.1) n,
      List.drop_eq_nil_of_le hn]
    rfl

/-- Witness for C2 (amended claim): on a capacity-20 list initialised with
three values, `+=` by 3 from `begin()` lands exactly on `end()`. -/
theorem C2_bounded_advance_witness :
    FixedLengthListIter.plusEq (FixedLengthList.initWith 20 [12, 23, 34])
        ((FixedLengthList.initWith 20 [12, 23, 34]).begin) 3 =
      (FixedLengthList.initWith 20 [12, 23, 34]).endIter :=
  (C2_bounded_advance (T := Nat) (N := 20)).2.2.2.2
    (FixedLengthList.initWith 20 [12, 23, 34]) [0, 1, 2]
    (List.range' 3 17) (by decide) 3 (by decide)

/-- Claim C3: for every capacity N > 0 and every sequence of
push/queue/pop/dequeue/remove/clear operations starting from a freshly
constructed list, `used() + available() == N` holds after every operation,
with `used() ≤ N` (and `0 ≤ used()` trivially in `Nat`). -/
theorem C3_used_available_invariant {T : Type} [DecidableEq T] (N : Nat)
    (hN : 0 < N) (ops : List (Op T)) :
    (runOps (FixedLengthList.init T N) ops).used +
      (runOps (FixedLengthList.init T N) ops).available = N ∧
    (runOps (FixedLengthList.init T N) ops).used ≤ N := by
  obtain ⟨ul, fl, hwfl⟩ :=
    runOps_WF hN ops (FixedLengthList.init T N)
      ⟨[], List.range N, init_WF hN⟩
  have hle := WFl_used_le hwfl
  refine ⟨?_, hle⟩
  simp only [FixedLengthList.available, FixedLengthList.used] at *
  omega

/-- Witness for C3 at capacity 2 under a mixed operation sequence. -/
theorem C3_used_available_invariant_witness :
    (runOps (FixedLengthList.init Nat 2)
        [Op.push 5, Op.pop, Op.clear, Op.queue 7]).used +
      (runOps (FixedLengthList.init Nat 2)
        [Op.push 5, Op.pop, Op.clear, Op.queue 7]).available = 2 ∧
    (runOps (FixedLengthList.init Nat 2)
        [Op.push 5, Op.pop, Op.clear, Op.queue 7]).used ≤ 2 :=
  C3_used_available_invariant 2 (by decide)
    [Op.push 5, Op.pop, Op.clear, Op.queue 7]

/-- Claim C4: on every well-formed list with at least one free slot,
push(v) succeeds and an immediately following pop succeeds and stores v in
the output location (LIFO at the front); concretely, with capacity 20,
push(111) then push(222) makes pop yield 222, then 111, leaving the list
empty. -/
theorem C4_push_pop_lifo :
    (∀ (T : Type) (N : Nat) (s : FixedLengthList T N) (ul fl : List Nat)
      (v : T) (out : Option T), WFl s ul fl → 0 < s.available →
      (s.push v).1 = true ∧
      ((s.push v).2.pop out).1 = true ∧
      ((s.push v).2.pop out).2.2 = some v) ∧
    ((((FixedLengthList.init Nat 20).push 111).2.push 222).2.pop
        none).2.2 = some 222 ∧
    (((((FixedLengthList.init Nat 20).push 111).2.push 222).2.pop
        none).2.1.pop none).2.2 = some 111 ∧
    (((((FixedLengthList.init Nat 20).push 111).2.push 222).2.pop
        none).2.1.pop none).2.1.used = 0 := by
  refine ⟨?_, by decide, by decide, by decide⟩
  intro T N s ul fl v out hwf havail
  obtain ⟨hlen, hu, hf, hcnt, hsum, hnd, htl⟩ := hwf
  have hwf' : WFl s ul fl := ⟨hlen, hu, hf, hcnt, hsum, hnd, htl⟩
  have hfl : fl ≠ [] := by
    intro h
    subst h
    simp only [FixedLengthList.available, FixedLengthList.used] at havail
    simp at hsum
    omega
  cases fl with
  | nil => exact absurd rfl hfl
  | cons nf fl' =>
    obtain ⟨hp1, hp2, hp3, hp4⟩ := push_spec s ul fl' nf v hwf'
    obtain ⟨hq1, hq2, hq3, hq4⟩ := pop_spec (s.push v).2 nf ul fl' out hp2
    refine ⟨hp1, hq1, ?_⟩
    rw [hq2]
    simp only [vals, List.map_cons] at hp3
    exact (List.cons.injEq _ _ _ _).mp hp3 |>.1

/-- Witness for C4's universally quantified part: pushing 7 onto a fresh
capacity-2 list and popping it back yields 7. -/
theorem C4_push_pop_lifo_witness :
    ((FixedLengthList.init Nat 2).push 7).1 = true ∧
    (((FixedLengthList.init Nat 2).push 7).2.pop none).1 = true ∧
    (((FixedLengthList.init Nat 2).push 7).2.pop none).2.2 = some 7 :=
  C4_push_pop_lifo.1 Nat 2 (FixedLengthList.init Nat 2) [] [0, 1] 7 none
    (by decide) (by decide)

/-- Claim C5: on every well-formed list holding exactly N elements, push
and queue return false with the state (hence the used list and all stored
values) unchanged, and used() == N, available() == 0 afterwards. -/
theorem C5_full_rejects {T : Type} {N : Nat} (s : FixedLengthList T N)
    (ul fl : List Nat) (v w : T) (hwf : WFl s ul fl)
    (hfull : s.used = N) :
    s.push v = (false, s) ∧ s.queue w = (false, s) ∧
    s.used = N ∧ s.available = 0 := by
  obtain ⟨hlen, hu, hf, hcnt, hsum, hnd, htl⟩ := hwf
  have hwf' : WFl s ul fl := ⟨hlen, hu, hf, hcnt, hsum, hnd, htl⟩
  have hfl : fl = [] := by
    apply List.eq_nil_of_length_eq_zero
    simp only [FixedLengthList.used] at hfull
    omega
  subst hfl
  have hfh := WFl_freeHead_none hwf'
  refine ⟨push_fail s v hfh, queue_fail s w hfh, hfull, ?_⟩
  simp only [FixedLengthList.available, FixedLengthList.used] at *
  omega

/-- Witness for C5: a capacity-2 list filled by two queues rejects further
insertions. -/
theorem C5_full_rejects_witness :
    (runQueues (FixedLengthList.init Nat 2) [4, 5]).push 6 =
      (false, runQueues (FixedLengthList.init Nat 2) [4, 5]) ∧
    (runQueues (FixedLengthList.init Nat 2) [4, 5]).queue 7 =
      (false, runQueues (FixedLengthList.init Nat 2) [4, 5]) ∧
    (runQueues (FixedLengthList.init Nat 2) [4, 5]).used = 2 ∧
    (runQueues (FixedLengthList.init Nat 2) [4, 5]).available = 0 :=
  C5_full_rejects (runQueues (FixedLengthList.init Nat 2) [4, 5])
    [0, 1] [] 6 7 (by decide) (by decide)

/-- Claim C6: on every well-formed empty list and for every initial value
of the output location, pop and dequeue return false, leave the state
unchanged and leave the output location holding its initial value. -/
theorem C6_empty_pop_dequeue_fail {T : Type} {N : Nat}
    (s : FixedLengthList T N) (ul fl : List Nat) (out : Option T)
    (hwf : WFl s ul fl) (hempty : s.used = 0) :
    s.pop out = (false, s, out) ∧ s.dequeue out = (false, s, out) := by
  obtain ⟨hlen, hu, hf, hcnt, hsum, hnd, htl⟩ := hwf
  have hul : ul = [] := by
    apply List.eq_nil_of_length_eq_zero
    simp only [FixedLengthList.used] at hempty
    omega
  subst hul
  obtain ⟨hh, ht⟩ :=
    WFl_usedHead_none ⟨hlen, hu, hf, hcnt, hsum, hnd, htl⟩
  exact ⟨pop_fail s out hh, dequeue_fail s out ht⟩

/-- Witness for C6: a fresh capacity-3 list rejects pop and dequeue,
leaving the output location's previous content (99) in place. -/
theorem C6_empty_pop_dequeue_fail_witness :
    (FixedLengthList.init Nat 3).pop (some 99) =
      (false, FixedLengthList.init Nat 3, some 99) ∧
    (FixedLengthList.init Nat 3).dequeue (some 99) =
      (false, FixedLengthList.init Nat 3, some 99) :=
  C6_empty_pop_dequeue_fail (FixedLengthList.init Nat 3)
    [] [0, 1, 2] (some 99) (by decide) (by decide)

/-- Claim C7: for every capacity N > 0 and every input array of K values,
the initialising constructor yields used() == min(K, N); a full iteration
of the constructed list visits exactly the first min(K, N) input values in
input order (first value at the head); values beyond N are silently
ignored — the constructor signals no error (its result is a plain state)
and the resulting state is well formed, holding exactly the first
min(K, N) values. -/
theorem C7_initialising_constructor {T : Type} (N : Nat) (vs : List T)
    (hN : 0 < N) :
    (FixedLengthList.initWith N vs).used = min vs.length N ∧
    iterToList (FixedLengthList.initWith N vs).m_items
        (FixedLengthList.initWith N vs).m_usedHead N =
      (vs.take (min N vs.length)).map some ∧
    WFl (FixedLengthList.initWith N vs) (List.range (min N vs.length))
      (List.range' (min N vs.length) (N - min N vs.length)) := by
  obtain ⟨hwf, hvals⟩ := initWith_spec N vs hN
  refine ⟨?_, ?_, hwf⟩
  · show min N vs.length = min vs.length N
    exact Nat.min_comm N vs.length
  · obtain ⟨hlen, hu, hf, hcnt, hsum, hnd, htl⟩ := hwf
    rw [iterToList_spec (List.range (min N vs.length)) _ N
      (chain?_sound N _ _ hu) (by simp), hvals]

/-- Witness for C7 with K = 4 values and capacity N = 3: only the first
three values are consumed, silently. -/
theorem C7_initialising_constructor_witness :
    (FixedLengthList.initWith 3 [7, 8, 9, 10]).used = min 4 3 ∧
    iterToList (FixedLengthList.initWith 3 [7, 8, 9, 10]).m_items
        (FixedLengthList.initWith 3 [7, 8, 9, 10]).m_usedHead 3 =
      [some 7, some 8, some 9] ∧
    WFl (FixedLengthList.initWith 3 [7, 8, 9, 10]) [0, 1, 2] [] :=
  C7_initialising_constructor 3 [7, 8, 9, 10] (by decide)

/-- Claim C8: on every well-formed list, remove(v) scans from the head; if
the used list splits as l₁ ++ p :: l₂ with no slot of l₁ storing v and
slot p storing v (so p is the first match), remove(v) returns true,
unlinks exactly slot p (the used list becomes l₁ ++ l₂ with every slot's
stored value unchanged), decrements used() by one, and inList(v) is still
true when some slot of l₂ also stores v (duplicates); if no used slot
stores v, remove(v) returns false and the state is unchanged. -/
theorem C8_remove_first_match {T : Type} {N : Nat} [DecidableEq T]
    (s : FixedLengthList T N) (ul fl : List Nat) (v : T)
    (hwf : WFl s ul fl) :
    (∀ (l₁ l₂ : List Nat) (p : Nat), ul = l₁ ++ p :: l₂ →
      (∀ i ∈ l₁, (nthItem s.m_items i).m_item ≠ some v) →
      (nthItem s.m_items p).m_item = some v →
      (s.remove v).1 = true ∧
      WFl (s.remove v).2 (l₁ ++ l₂) (p :: fl) ∧
      (s.remove v).2.used = s.used - 1 ∧
      (∀ j, (nthItem (s.remove v).2.m_items j).m_item =
        (nthItem s.m_items j).m_item) ∧
      ((∃ i ∈ l₂, (nthItem s.m_items i).m_item = some v) →
        (s.remove v).2.inList v = true)) ∧
    ((∀ i ∈ ul, (nthItem s.m_items i).m_item ≠ some v) →
      s.remove v = (false, s)) := by
  obtain ⟨hlen, hu, hf, hcnt, hsum, hnd, htl⟩ := hwf
  have hwf' : WFl s ul fl := ⟨hlen, hu, hf, hcnt, hsum, hnd, htl⟩
  constructor
  · intro l₁ l₂ p hsplit hl₁ hp
    subst hsplit
    have hres := remove_go_found s v fl l₁ [] p l₂ s.m_usedHead N
      (by simpa using hwf') (ChainSeg.nil s.m_usedHead)
      (chain?_sound N _ _ hu) hl₁ hp (by omega)
    obtain ⟨hr1, hr2, hr3⟩ := hres
    have hr3' : ∀ j, (nthItem (s.remove v).2.m_items j).m_item =
        (nthItem s.m_items j).m_item := hr3
    have hwfr : WFl (s.remove v).2 (l₁ ++ l₂) (p :: fl) := by
      simpa using hr2
    refine ⟨hr1, hwfr, ?_, hr3', ?_⟩
    · have hc' := hwfr.2.2.2.1
      simp only [FixedLengthList.used] at *
      rw [hc', hcnt]
      simp
    · intro ⟨i, hi, hiv⟩
      rw [inList_spec (s.remove v).2 v (l₁ ++ l₂) (p :: fl) hwfr]
      exact ⟨i, List.mem_append_right l₁ hi, by rw [hr3' i]; exact hiv⟩
  · intro hno
    exact remove_go_not_found s v ul none s.m_usedHead N
      (chain?_sound N _ _ hu) hno
      (by rw [← hsum]; exact Nat.le_add_right _ _)

/-- Witness for C8 on the list [5, 7, 5]: removing 5 succeeds and, because
of the duplicate, inList(5) is still true afterwards. -/
theorem C8_remove_first_match_witness :
    ((FixedLengthList.initWith 4 [5, 7, 5]).remove 5).1 = true ∧
    ((FixedLengthList.initWith 4 [5, 7, 5]).remove 5).2.inList 5 = true := by
  have h := (C8_remove_first_match (FixedLengthList.initWith 4 [5, 7, 5])
    [0, 1, 2] [3] 5 (by decide)).1 [] [1, 2] 0 rfl (by decide) (by decide)
  exact ⟨h.1, h.2.2.2.2 ⟨2, by decide, by decide⟩⟩

/-- Claim C9: on every well-formed list, the full traversal from begin()
(following forward links until the cursor equals end()) dereferences
exactly used() values, in used-list order from head to tail, and
begin() == end() holds exactly when used() == 0. -/
theorem C9_iteration {T : Type} {N : Nat} (s : FixedLengthList T N)
    (ul fl : List Nat) (hwf : WFl s ul fl) :
    (iterToList s.m_items s.m_usedHead N).length = s.used ∧
    iterToList s.m_items s.m_usedHead N = vals s.m_items ul ∧
    (FixedLengthListIter.eq s.begin (s.endIter) = true ↔ s.used = 0) := by
  obtain ⟨hlen, hu, hf, hcnt, hsum, hnd, htl⟩ := hwf
  have hit := iterToList_spec ul s.m_usedHead N (chain?_sound N _ _ hu)
    (by omega)
  refine ⟨?_, hit, ?_, ?_⟩
  · rw [hit]
    simp [vals, FixedLengthList.used, hcnt]
  · intro he
    have hh : s.m_usedHead = none := by
      simpa [FixedLengthListIter.eq, FixedLengthList.begin,
        FixedLengthList.endIter] using he
    rw [hh, chain?_none] at hu
    have hul : [] = ul := by injection hu
    simp [FixedLengthList.used, hcnt, ← hul]
  · intro he
    have hul : ul = [] := by
      apply List.eq_nil_of_length_eq_zero
      simp only [FixedLengthList.used, hcnt] at he
      exact he
    subst hul
    have hh : s.m_usedHead = none := ((chain?_sound N _ _ hu).nil_inv).symm
    simp [FixedLengthListIter.eq, FixedLengthList.begin,
      FixedLengthList.endIter, hh]

/-- Witness for C9 on a capacity-3 list holding [4, 5]. -/
theorem C9_iteration_witness :
    (iterToList (FixedLengthList.initWith 3 [4, 5]).m_items
        (FixedLengthList.initWith 3 [4, 5]).m_usedHead 3).length =
      (FixedLengthList.initWith 3 [4, 5]).used ∧
    iterToList (FixedLengthList.initWith 3 [4, 5]).m_items
        (FixedLengthList.initWith 3 [4, 5]).m_usedHead 3 =
      vals (FixedLengthList.initWith 3 [4, 5]).m_items [0, 1] ∧
    (FixedLengthListIter.eq (FixedLengthList.initWith 3 [4, 5]).begin
        ((FixedLengthList.initWith 3 [4, 5]).endIter) = true ↔
      (FixedLengthList.initWith 3 [4, 5]).used = 0) :=
  C9_iteration (FixedLengthList.initWith 3 [4, 5]) [0, 1] [2] (by decide)

/-- Claim C10: on every well-formed list, a default-constructed iterator
compares equal to end() (both carry the null sentinel), and compares
not-equal to begin() whenever the list is non-empty. -/
theorem C10_default_iterator {T : Type} {N : Nat}
    (s : FixedLengthList T N) (ul fl : List Nat) (hwf : WFl s ul fl) :
    FixedLengthListIter.eq (FixedLengthListIter.initVoid T N)
      (s.endIter) = true ∧
    (s.used ≠ 0 →
      FixedLengthListIter.ne (FixedLengthListIter.initVoid T N)
        s.begin = true) := by
  obtain ⟨hlen, hu, hf, hcnt, hsum, hnd, htl⟩ := hwf
  refine ⟨by simp [FixedLengthListIter.eq, FixedLengthListIter.initVoid,
    FixedLengthList.endIter], ?_⟩
  intro hne
  have hul : ul ≠ [] := by
    intro h
    subst h
    simp [FixedLengthList.used, hcnt] at hne
  obtain ⟨x, hx, hh⟩ := (chain?_sound N _ _ hu).head_mem hul
  simp [FixedLengthListIter.ne, FixedLengthListIter.initVoid,
    FixedLengthList.begin, hh]

/-- Witness for C10 on a capacity-2 list holding one value. -/
theorem C10_default_iterator_witness :
    FixedLengthListIter.eq (FixedLengthListIter.initVoid Nat 2)
      ((FixedLengthList.initWith 2 [9]).endIter) = true ∧
    ((FixedLengthList.initWith 2 [9]).used ≠ 0 →
      FixedLengthListIter.ne (FixedLengthListIter.initVoid Nat 2)
        (FixedLengthList.initWith 2 [9]).begin = true) :=
  C10_default_iterator (FixedLengthList.initWith 2 [9]) [0] [1] (by decide)
